import Mathlib

/-!
WordCount-CSV: a shallow embedding of `main.cpp`.

The program scans the files of a directory, takes the field at index 12 of every
comma-separated data row, normalises it with `clean_word`, counts the resulting tokens
per file, merges the per-file counts into a global mapping and prints reports.

Modelling conventions.

* A `char` is modelled by its `unsigned char` value, a natural number below 256, and a
  `std::string` by the list of these values (`Str`).  The program never calls
  `setlocale`, so `isalpha` and `tolower` are those of the "C" locale.
* An `unordered_map<string, int>` is modelled by the sequence of its entries in
  iteration order (`Freq`); its keys are pairwise distinct (`WF`).  The iteration order
  of the real container is unspecified, so statements about reports are made for every
  entry sequence with distinct keys.
* `int` counters: `add`, `merge_maps` and `merge_all` compute with unbounded integers and
  describe the program as long as no count leaves the range of `int`; `add_int32`,
  `merge_maps_int32` and `merge_all_int32` compute with the 32-bit two's complement
  arithmetic of the compiled program, where `2147483647 + 1` is `-2147483648` (the C++
  standard leaves signed overflow undefined).  The two agree while all sums stay in range
  (`merge_maps_int32_eq`).  A single file reaches the bound only with 2^31 counted rows.
* A readable file is modelled by its content, the stream position by the unread rest.
* The directory is modelled by the sequence of entries that `readdir` yields, each with
  its name, the content of its file (if it can be opened) and the measured elapsed time.
  Elapsed times are finite `double` values, modelled by rational numbers; the program
  only compares them.
-/

namespace WordCount

/-- A `std::string`: the sequence of its `unsigned char` values. -/
abbrev Str := List Nat

/-- An `unordered_map<string, int>`: its entries, in iteration order. -/
abbrev Freq := List (Str × Int)

/-- Conversion of a literal to a `Str` (for ASCII literals: the bytes of the literal). -/
def str (s : String) : Str := s.toList.map Char.toNat

/-- The character `','`. -/
def comma : Nat := 44

/-- The character `'\n'`. -/
def newline : Nat := 10

/-! ## `clean_word` -/

/-- `isalpha` of the "C" locale: `'A'..'Z'` or `'a'..'z'`. -/
def isalpha (c : Nat) : Bool := (65 ≤ c && c ≤ 90) || (97 ≤ c && c ≤ 122)

/-- `tolower` of the "C" locale: `'A'..'Z'` is shifted to `'a'..'z'`, the rest is unchanged. -/
def tolower (c : Nat) : Nat := if 65 ≤ c ∧ c ≤ 90 then c + 32 else c

/-- `clean_word` (main.cpp 16-22): the loop `for (char c : word) if (isalpha(c)) result += tolower(c);`
starting from the empty `result`. -/
def clean_word (word : Str) : Str :=
  word.foldl (fun result c => if isalpha c then result ++ [tolower c] else result) []

/-- The tokenizer as the specification words it: keep exactly the alphabetic characters,
in their original order, and replace each by its lowercase form. -/
def keepAlphaLower (w : Str) : Str := (w.filter isalpha).map tolower

/-! ## The comma-splitting loop -/

/-- `std::string::find(char)`: the index of the first occurrence, `none` for `npos`. -/
def find (c : Nat) : Str → Option Nat
  | [] => none
  | x :: xs => if x = c then some 0 else (find c xs).map (· + 1)

/-- The loop of main.cpp 50-55 with an iteration bound:
`while ((pos2 = temp.find(',')) != npos) { columns.push_back(temp.substr(0, pos2)); temp.erase(0, pos2 + 1); }`
followed by `columns.push_back(temp)`. -/
def splitLoop : Nat → Str → List Str → List Str
  | 0, temp, columns => columns ++ [temp]
  | fuel + 1, temp, columns =>
    match find comma temp with
    | some pos2 => splitLoop fuel (temp.drop (pos2 + 1)) (columns ++ [temp.take pos2])
    | none => columns ++ [temp]

/-- The `columns` vector built for a line (main.cpp 46-55).  Every iteration erases at
least one character of `temp`, so `line.length` iterations are enough (`splitLoop_fuel`). -/
def split_columns (line : Str) : List Str := splitLoop line.length line []

/-! ## Frequency mappings -/

/-- The well-formedness of an `unordered_map`: its keys are pairwise distinct. -/
def WF (m : Freq) : Prop := (m.map Prod.fst).Nodup

instance (m : Freq) : Decidable (WF m) := by
  unfold WF
  infer_instance

/-- `m.find(key)`: the mapped value, `none` when the key is absent. -/
def lookup (m : Freq) (key : Str) : Option Int :=
  match m with
  | [] => none
  | (k, v) :: rest => if k = key then some v else lookup rest key

/-- The count of a token in a mapping, 0 when the token is absent. -/
def count (m : Freq) (key : Str) : Int := (lookup m key).getD 0

/-- `m[key] += d` : `operator[]` inserts the key with the value-initialised count 0 when
it is absent, then `d` is added to the mapped value.  The sum is the exact one: this is
the `int` addition of the program as long as the result is in the range of `int`
(see `add_int32` for the addition at the bounds). -/
def add (m : Freq) (key : Str) (d : Int) : Freq :=
  match m with
  | [] => [(key, 0 + d)]
  | (k, v) :: rest => if k = key then (k, v + d) :: rest else (k, v) :: add rest key d

/-- The index of the M1 column (`int target_idx = 12`). -/
def target_idx : Nat := 12

/-- The body of the row loop (main.cpp 46-61) for one line.  The test
`(int)columns.size() > target_idx` compares the number of columns with 12 (the cast is the
identity below 2^31 columns), and `columns[target_idx]` is read only when it exists. -/
def process_row (freq : Freq) (line : Str) : Freq :=
  let columns := split_columns line
  if columns.length > target_idx then
    let clean := clean_word (columns.getD target_idx [])
    if clean ≠ [] then add freq clean 1 else freq
  else freq

/-! ## Reading a file -/

/-- `getline(file, line)` on a stream whose unread rest is `file`: it fails (`none`) when
no character is left, otherwise it yields the line up to the next `'\n'` (which is
consumed and not stored) or up to the end of the file, and the new unread rest. -/
def getline (file : Str) : Option (Str × Str) :=
  match file with
  | [] => none
  | _ :: _ =>
    match find newline file with
    | some pos => some (file.take pos, file.drop (pos + 1))
    | none => some (file, [])

/-- The loop `while (getline(file, line)) { ... }` of main.cpp 45-62 with an iteration bound. -/
def scanLoop : Nat → Str → Freq → Freq
  | 0, _, freq => freq
  | fuel + 1, file, freq =>
    match getline file with
    | none => freq
    | some (line, rest) => scanLoop fuel rest (process_row freq line)

/-- The unread rest after the unconditional `getline(file, line)` of main.cpp 42. -/
def skip_header (file : Str) : Str :=
  match getline file with
  | some (_, rest) => rest
  | none => file

/-- `count_words_in_file` (main.cpp 25-72).  The argument is the content of the file,
`none` when the file cannot be opened.  Every successful `getline` consumes at least one
character, so `rest.length` iterations are enough (`scanLoop_fuel`). -/
def count_words_in_file (file : Option Str) : Freq :=
  match file with
  | none => []
  | some content =>
    let rest := skip_header content
    scanLoop rest.length rest []

/-- The lines that successive `getline` calls read from a stream, with an iteration bound. -/
def readLines : Nat → Str → List Str
  | 0, _ => []
  | fuel + 1, file =>
    match getline file with
    | none => []
    | some (line, rest) => line :: readLines fuel rest

/-- A file viewed as the list of its lines. -/
def fileLines (file : Str) : List Str := readLines file.length file

/-- The data rows of a file that pass both tests of main.cpp 57-59 with token `t`: more
than 12 fields, and a field at index 12 that `clean_word` maps to the non-empty `t`. -/
def rowYields (t : Str) (line : Str) : Bool :=
  decide ((split_columns line).length > 12 ∧
    clean_word ((split_columns line).getD 12 []) = t ∧ t ≠ [])

/-- A data row that is counted: more than 12 fields and a non-empty token at index 12. -/
def rowCounted (line : Str) : Bool :=
  decide ((split_columns line).length > 12 ∧
    clean_word ((split_columns line).getD 12 []) ≠ [])

/-! ## `merge_maps` -/

/-- `merge_maps` (main.cpp 75-78): `for (const auto &p : local) global[p.first] += p.second;`,
with exact sums: the program as long as no sum leaves the range of `int`
(see `merge_maps_int32` for the sums at the bounds). -/
def merge_maps (global loc : Freq) : Freq :=
  loc.foldl (fun g p => add g p.1 p.2) global

/-- The global mapping after the per-file mappings `locals` were merged one after another
into the initially empty `global_freq` (main.cpp 90, 157), with exact sums. -/
def merge_all (locals : List Freq) : Freq := locals.foldl merge_maps []

/-- The range of the 32-bit type `int`: from `INT_MIN = -2147483648` to
`INT_MAX = 2147483647`. -/
def inIntRange (x : Int) : Prop := -2147483648 ≤ x ∧ x ≤ 2147483647

instance (x : Int) : Decidable (inIntRange x) := by
  unfold inIntRange
  infer_instance

/-- The value that a 32-bit two's complement `int` holds for the exact result `x`: `x`
itself when it is in range, otherwise `x` shifted by a multiple of 2^32 into the range. -/
def wrap_int32 (x : Int) : Int := (x + 2147483648) % 4294967296 - 2147483648

/-- `m[key] += d` on `int` values (main.cpp 77): as `add`, with the 32-bit sum. -/
def add_int32 (m : Freq) (key : Str) (d : Int) : Freq :=
  match m with
  | [] => [(key, wrap_int32 (0 + d))]
  | (k, v) :: rest =>
    if k = key then (k, wrap_int32 (v + d)) :: rest else (k, v) :: add_int32 rest key d

/-- `merge_maps` (main.cpp 75-78) with the 32-bit `int` sums of the compiled program:
`for (const auto &p : local) global[p.first] += p.second;`. -/
def merge_maps_int32 (global loc : Freq) : Freq :=
  loc.foldl (fun g p => add_int32 g p.1 p.2) global

/-- The global mapping after the per-file mappings `locals` were merged one after another
by `merge_maps_int32` into the initially empty `global_freq` (main.cpp 90, 157). -/
def merge_all_int32 (locals : List Freq) : Freq := locals.foldl merge_maps_int32 []

/-- The concatenation of a field sequence with `','` between consecutive fields. -/
def join_fields : List Str → Str
  | [] => []
  | [f] => f
  | f :: g :: rest => f ++ comma :: join_fields (g :: rest)

/-- The number of commas in a line. -/
def commas (line : Str) : Nat := line.count comma

/-- The remainder of a line after its last comma (the whole line when it has none). -/
def after_last_comma (line : Str) : Str := (line.reverse.takeWhile (· ≠ comma)).reverse

/-! ## The reports of `main` -/

/-- `operator<` of `std::string`: lexicographic comparison of the `unsigned char`
values, a proper prefix being smaller. -/
def strLt : Str → Str → Bool
  | [], [] => false
  | [], _ :: _ => true
  | _ :: _, [] => false
  | a :: as, b :: bs => if a < b then true else if b < a then false else strLt as bs

/-- One step of the insertion sort: `x` is moved in front of the first element that it
is before (`comp x y`), behind all the elements that it is not before. -/
def insert_by {α : Type} (comp : α → α → Bool) (x : α) : List α → List α
  | [] => [x]
  | y :: ys => if comp x y then x :: y :: ys else y :: insert_by comp x ys

/-- `std::sort(first, last, comp)`, as the insertion sort that takes the elements in their
given order.  `std::sort` leaves the relative order of equivalent elements unspecified;
for the string sort of main.cpp 136 no two elements are equivalent, so the result is
determined. -/
def sort_by {α : Type} (comp : α → α → Bool) (l : List α) : List α :=
  l.foldl (fun sorted x => insert_by comp x sorted) []

/-- What the block of main.cpp 123-145 prints for one file. -/
inductive FileReport where
  /-- The mapping is empty: the block guarded by `if (!local.empty())` is skipped. -/
  | nothing : FileReport
  /-- The line `File: <name> -> No duplicate words.` -/
  | noDuplicates : FileReport
  /-- The line `File: <name> -> Most frequent word(s) (count: <max_freq>): <top_words>`,
  the words separated by `", "`. -/
  | mostFrequent (max_freq : Int) (top_words : List Str) : FileReport
  deriving DecidableEq

/-- The loop of main.cpp 124-126: `max_freq = 0; for (p : local) if (p.second > max_freq) max_freq = p.second;`. -/
def max_freq_of (loc : Freq) : Int :=
  loc.foldl (fun max_freq p => if p.2 > max_freq then p.2 else max_freq) 0

/-- The loop of main.cpp 131-134: `for (p : local) if (p.second == max_freq) top_words.push_back(p.first);`. -/
def top_words_of (loc : Freq) (max_freq : Int) : List Str :=
  loc.foldl (fun top_words p => if p.2 = max_freq then top_words ++ [p.1] else top_words) []

/-- The per-file most-frequent report of `main` (main.cpp 123-145) for the mapping
`loc` returned by `count_words_in_file`. -/
def file_report (loc : Freq) : FileReport :=
  if loc.isEmpty then FileReport.nothing
  else
    let max_freq := max_freq_of loc
    if max_freq ≤ 1 then FileReport.noDuplicates
    else FileReport.mostFrequent max_freq (sort_by strLt (top_words_of loc max_freq))

/-- The vector `sorted` of main.cpp 177-179: the entries of the global mapping, sorted
with the comparator `a.second > b.second`. -/
def sorted_entries (global_freq : Freq) : List (Str × Int) :=
  sort_by (fun a b => decide (a.2 > b.2)) global_freq

/-- The entries printed by the loop of main.cpp 183-184:
`for (int i = 0; i < 10 && i < (int)sorted.size(); i++) cout << sorted[i] ...`. -/
def top10 (global_freq : Freq) : List (Str × Int) := (sorted_entries global_freq).take 10

/-- A Token of the specification: a non-empty sequence of lowercase alphabetic characters
(`'a'..'z'`). -/
def isToken (s : Str) : Prop := s ≠ [] ∧ ∀ c ∈ s, 97 ≤ c ∧ c ≤ 122

/-- One entry that `readdir` yields, with what the run observes of it. -/
structure DirEntry where
  /-- The name `ent->d_name`. -/
  name : Str
  /-- The content of the file `data/<name>`, `none` when that path cannot be opened. -/
  content : Option Str
  /-- The measured `file_end - file_start`.  It is a finite `double`, hence a rational
  number, and the program only compares it. -/
  elapsed : Rat
  deriving DecidableEq

/-- The reports that `main` and `count_words_in_file` write.  The banner and the system
information, which every run writes first, and the lines that only show a duration (inner
loop time, total execution time) are left out. -/
inductive Output where
  /-- The line `Error: Could not open file: <path>` of `count_words_in_file`. -/
  | fileOpenError (path : Str) : Output
  /-- The per-file report line of main.cpp 123-145. -/
  | fileReport (name : Str) (report : FileReport) : Output
  /-- The line `Execution time for <name>: <elapsed> seconds`. -/
  | fileTime (name : Str) (elapsed : Rat) : Output
  /-- The two lines `Error: Could not open directory: data` and `Please create ...`. -/
  | dirError : Output
  /-- The lines `Processed <file_count> files.` and `Unique words: <size>`. -/
  | processed (file_count : Int) (unique_words : Nat) : Output
  /-- The top-10 report `Top 10 most frequent words:` with its entries. -/
  | topTen (entries : List (Str × Int)) : Output
  /-- The benchmark summary: files processed, unique words, slowest file and its time. -/
  | summary (file_count : Int) (unique_words : Nat) (slowest_file : Str)
      (slowest_time : Rat) : Output
  deriving DecidableEq

/-- The variables of `main` that the directory loop changes, and what was written so far. -/
structure RunState where
  /-- The global mapping `global_freq`. -/
  global_freq : Freq
  /-- The counter `file_count`. -/
  file_count : Int
  /-- The variable `slowest_time`. -/
  slowest_time : Rat
  /-- The variable `slowest_file`. -/
  slowest_file : Str
  /-- The reports written so far. -/
  out : List Output

/-- The test `filename == "." || filename == ".."` of main.cpp 111. -/
def is_pseudo (filename : Str) : Bool := filename == str "." || filename == str ".."

/-- The string `folder` of main.cpp 89. -/
def folder : Str := str "data"

/-- The update of main.cpp 152-155: `if (elapsed > slowest_time) { slowest_time = elapsed; slowest_file = filename; }`. -/
def track_slowest (slowest : Rat × Str) (elapsed : Rat) (filename : Str) : Rat × Str :=
  if elapsed > slowest.1 then (elapsed, filename) else slowest

/-- What the block of main.cpp 123-145 writes for the mapping `loc` of the file `filename`. -/
def report_lines (filename : Str) (loc : Freq) : List Output :=
  match file_report loc with
  | FileReport.nothing => []
  | report => [Output.fileReport filename report]

/-- The body of the directory loop (main.cpp 110-157) for one entry. -/
def process_entry (st : RunState) (ent : DirEntry) : RunState :=
  if is_pseudo ent.name then st
  else
    let path := folder ++ str "/" ++ ent.name
    let loc := count_words_in_file ent.content
    let err := match ent.content with
      | none => [Output.fileOpenError path]
      | some _ => []
    let slowest := track_slowest (st.slowest_time, st.slowest_file) ent.elapsed ent.name
    RunState.mk (merge_maps st.global_freq loc) (st.file_count + 1) slowest.1 slowest.2
      (st.out ++ err ++ report_lines ent.name loc ++ [Output.fileTime ent.name ent.elapsed])

/-- The variables of `main` before the directory loop (main.cpp 90-91, 102-103). -/
def init_state : RunState := RunState.mk [] 0 0 [] []

/-- The directory loop `while ((ent = readdir(dir)) != NULL)` over the entries of the
directory, in the order in which `readdir` yields them. -/
def run_loop (entries : List DirEntry) : RunState := entries.foldl process_entry init_state

/-- The function `main`: the argument is the sequence of entries of the directory `data`,
`none` when `opendir` fails; the result is the exit status and the reports written. -/
def main (dir : Option (List DirEntry)) : Int × List Output :=
  match dir with
  | none => (1, [Output.dirError])
  | some entries =>
    let st := run_loop entries
    (0, st.out ++
      [Output.processed st.file_count st.global_freq.length,
       Output.topTen (top10 st.global_freq),
       Output.summary st.file_count st.global_freq.length st.slowest_file st.slowest_time])

/-- The entries that the directory loop processes: all but `.` and `..`. -/
def processed_entries (entries : List DirEntry) : List DirEntry :=
  entries.filter (fun ent => !is_pseudo ent.name)

/-- The claim on the slowest file: the reported file is the first entry, in enumeration
order, whose elapsed time is the maximum over all entries, and the reported time is that
maximum. -/
def SlowestIsFirstMax (entries : List DirEntry) (slowest_time : Rat) (slowest_file : Str) :
    Prop :=
  ∃ (before : List DirEntry) (ent : DirEntry) (later : List DirEntry),
    entries = before ++ ent :: later ∧
    (∀ x ∈ before, x.elapsed < ent.elapsed) ∧ (∀ x ∈ later, x.elapsed ≤ ent.elapsed) ∧
    slowest_file = ent.name ∧ slowest_time = ent.elapsed

/-- The claim on ties in the top-10 report: of two listed entries with equal counts, the
one with the lexicographically smaller token is listed first. -/
def TiesAlphabetical (listed : List (Str × Int)) : Prop :=
  listed.Pairwise (fun a b => a.2 = b.2 → strLt a.1 b.1 = true)

/-! ## Facts about `clean_word` -/

theorem clean_word_loop (w : Str) (acc : Str) :
    w.foldl (fun result c => if isalpha c then result ++ [tolower c] else result) acc
      = acc ++ keepAlphaLower w := by
  induction w generalizing acc with
  | nil => simp [keepAlphaLower]
  | cons c cs ih =>
    rw [List.foldl_cons, ih]
    by_cases hc : isalpha c = true
    · simp [keepAlphaLower, hc]
    · simp [keepAlphaLower, hc]

theorem clean_word_eq (w : Str) : clean_word w = keepAlphaLower w := by
  unfold clean_word
  rw [clean_word_loop]
  simp

/-! ## Facts about `find` and the splitting loop -/

theorem find_none {c : Nat} {s : Str} : find c s = none ↔ c ∉ s := by
  induction s with
  | nil => simp [find]
  | cons x xs ih =>
    by_cases hx : x = c
    · simp [find, hx]
    · have hx2 : ¬ c = x := fun h => hx h.symm
      simp [find, hx, hx2, ih]

theorem find_some {c : Nat} {s : Str} {i : Nat} (h : find c s = some i) :
    s = s.take i ++ c :: s.drop (i + 1) ∧ c ∉ s.take i ∧ i < s.length := by
  induction s generalizing i with
  | nil => simp [find] at h
  | cons x xs ih =>
    by_cases hx : x = c
    · simp [find, hx] at h
      subst h
      simp [hx]
    · simp only [find, hx, if_false, Option.map_eq_some'] at h
      obtain ⟨j, hj, rfl⟩ := h
      obtain ⟨h1, h2, h3⟩ := ih hj
      refine ⟨?_, ?_, ?_⟩
      · simp only [List.take_succ_cons, List.drop_succ_cons, List.cons_append]
        rw [← h1]
      · simp only [List.take_succ_cons, List.mem_cons, not_or]
        exact ⟨fun h => hx h.symm, h2⟩
      · simp only [List.length_cons]
        omega

theorem find_append_cons {c : Nat} {pre : Str} (rest : Str) (h : c ∉ pre) :
    find c (pre ++ c :: rest) = some pre.length := by
  induction pre with
  | nil => simp [find]
  | cons x xs ih =>
    have hx : ¬ x = c := fun e => h (by simp [e])
    have hxs : c ∉ xs := fun e => h (by simp [e])
    simp [find, hx, ih hxs]

theorem splitLoop_fuel (fuel : Nat) : ∀ (temp : Str) (columns : List Str),
    temp.length ≤ fuel → splitLoop fuel temp columns = splitLoop temp.length temp columns := by
  induction fuel using Nat.strong_induction_on with
  | _ fuel ih =>
    intro temp columns hlen
    cases fuel with
    | zero =>
      have : temp.length = 0 := by omega
      rw [this]
    | succ n =>
      cases hf : find comma temp with
      | none =>
        cases hl : temp.length with
        | zero => simp [splitLoop, hf]
        | succ k => simp [splitLoop, hf]
      | some pos2 =>
        obtain ⟨_, _, hlt⟩ := find_some hf
        have hd : (temp.drop (pos2 + 1)).length ≤ temp.length - 1 := by
          simp only [List.length_drop]
          omega
        cases hl : temp.length with
        | zero => omega
        | succ k =>
          simp only [splitLoop, hf]
          rw [ih n (Nat.lt_succ_self n) _ _ (by omega)]
          by_cases hk : k = n
          · rw [hk, ih n (Nat.lt_succ_self n) _ _ (by omega)]
          · rw [ih k (by omega) _ _ (by omega)]

theorem splitLoop_columns (fuel : Nat) : ∀ (temp : Str) (columns : List Str),
    splitLoop fuel temp columns = columns ++ splitLoop fuel temp [] := by
  induction fuel with
  | zero => intro temp columns; simp [splitLoop]
  | succ n ih =>
    intro temp columns
    cases hf : find comma temp with
    | none => simp [splitLoop, hf]
    | some pos2 =>
      simp only [splitLoop, hf]
      rw [ih, ih _ ([] ++ [temp.take pos2])]
      simp

/-- With at least `temp.length` iterations allowed, the loop appends the columns of `temp`. -/
theorem splitLoop_eq (fuel : Nat) (temp : Str) (columns : List Str) (h : temp.length ≤ fuel) :
    splitLoop fuel temp columns = columns ++ split_columns temp := by
  rw [splitLoop_fuel fuel temp columns h, splitLoop_columns]
  rfl

theorem split_columns_of_not_mem {line : Str} (h : comma ∉ line) : split_columns line = [line] := by
  have hf : find comma line = none := find_none.mpr h
  unfold split_columns
  cases hl : line.length with
  | zero => simp [splitLoop]
  | succ k => simp [splitLoop, hf]

theorem split_columns_append {pre rest : Str} (h : comma ∉ pre) :
    split_columns (pre ++ comma :: rest) = pre :: split_columns rest := by
  have hf := find_append_cons rest h
  unfold split_columns
  have hl : (pre ++ comma :: rest).length = (pre.length + rest.length) + 1 := by
    simp only [List.length_append, List.length_cons]; omega
  rw [hl]
  simp only [splitLoop, hf]
  have h1 : List.drop (pre.length + 1) (pre ++ comma :: rest) = rest := by
    rw [List.drop_append_eq_append_drop]
    simp
  have h2 : List.take pre.length (pre ++ comma :: rest) = pre := by simp
  rw [h1, h2, splitLoop_eq _ _ _ (by omega)]
  rfl

/-- The loop equation of the splitting loop: with no comma left the rest is the last
column, otherwise the text before the first comma is a column and the loop goes on behind
that comma. -/
theorem split_columns_unfold (line : Str) :
    split_columns line = match find comma line with
      | some pos2 => line.take pos2 :: split_columns (line.drop (pos2 + 1))
      | none => [line] := by
  cases hf : find comma line with
  | none => exact split_columns_of_not_mem (find_none.mp hf)
  | some pos2 =>
    obtain ⟨h1, h2, _⟩ := find_some hf
    have := @split_columns_append (line.take pos2) (line.drop (pos2 + 1)) h2
    rw [← h1] at this
    exact this

/-- Every line is either comma-free or a comma-free prefix, a comma and a shorter rest. -/
theorem line_cases (line : Str) :
    comma ∉ line ∨ ∃ pre rest, comma ∉ pre ∧ line = pre ++ comma :: rest := by
  cases hf : find comma line with
  | none => exact Or.inl (find_none.mp hf)
  | some i =>
    obtain ⟨h1, h2, _⟩ := find_some hf
    exact Or.inr ⟨_, _, h2, h1⟩

theorem split_induction {P : Str → Prop} (hnone : ∀ l, comma ∉ l → P l)
    (hsome : ∀ pre rest, comma ∉ pre → P rest → P (pre ++ comma :: rest)) : ∀ l, P l := by
  have key : ∀ n (l : Str), l.length = n → P l := by
    intro n
    induction n using Nat.strong_induction_on with
    | _ n ih =>
      intro l hn
      rcases line_cases l with h | ⟨pre, rest, hpre, rfl⟩
      · exact hnone l h
      · apply hsome pre rest hpre
        apply ih rest.length _ rest rfl
        rw [← hn]
        simp only [List.length_append, List.length_cons]
        omega
  exact fun l => key l.length l rfl

theorem split_columns_ne_nil (line : Str) : split_columns line ≠ [] := by
  rcases line_cases line with h | ⟨pre, rest, hpre, rfl⟩
  · simp [split_columns_of_not_mem h]
  · simp [split_columns_append hpre]

theorem join_fields_cons {f : Str} {fs : List Str} (h : fs ≠ []) :
    join_fields (f :: fs) = f ++ comma :: join_fields fs := by
  cases fs with
  | nil => exact absurd rfl h
  | cons g rest => rfl

theorem join_split_columns : ∀ line : Str, join_fields (split_columns line) = line := by
  apply split_induction
  · intro l h
    simp [split_columns_of_not_mem h, join_fields]
  · intro pre rest hpre ih
    rw [split_columns_append hpre, join_fields_cons (split_columns_ne_nil rest), ih]

theorem split_columns_comma_free : ∀ line : Str, ∀ f ∈ split_columns line, comma ∉ f := by
  apply split_induction
  · intro l h f hf
    rw [split_columns_of_not_mem h] at hf
    simp only [List.mem_singleton] at hf
    rw [hf]; exact h
  · intro pre rest hpre ih f hf
    rw [split_columns_append hpre] at hf
    rcases List.mem_cons.mp hf with rfl | hf
    · exact hpre
    · exact ih f hf

theorem split_columns_length : ∀ line : Str, (split_columns line).length = commas line + 1 := by
  apply split_induction
  · intro l h
    simp [split_columns_of_not_mem h, commas, List.count_eq_zero_of_not_mem h]
  · intro pre rest hpre ih
    rw [split_columns_append hpre, List.length_cons, ih]
    simp [commas, List.count_append, List.count_eq_zero_of_not_mem hpre]

theorem takeWhile_append_comma (a b : Str) :
    (a ++ comma :: b).takeWhile (· ≠ comma) = a.takeWhile (· ≠ comma) := by
  induction a with
  | nil => simp
  | cons x xs ih =>
    by_cases hx : x = comma
    · simp [List.takeWhile, hx]
    · simp only [List.cons_append, List.takeWhile, ne_eq, hx, not_false_eq_true, decide_True]
      rw [← ih]
      simp

theorem after_last_comma_of_not_mem {line : Str} (h : comma ∉ line) :
    after_last_comma line = line := by
  unfold after_last_comma
  have : line.reverse.takeWhile (· ≠ comma) = line.reverse := by
    apply List.takeWhile_eq_self_iff.mpr
    intro x hx
    have hx2 : x ∈ line := List.mem_reverse.mp hx
    simp only [ne_eq, decide_eq_true_eq]
    rintro rfl
    exact h hx2
  rw [this, List.reverse_reverse]

theorem after_last_comma_append (pre rest : Str) :
    after_last_comma (pre ++ comma :: rest) = after_last_comma rest := by
  unfold after_last_comma
  have : (pre ++ comma :: rest).reverse = rest.reverse ++ comma :: pre.reverse := by simp
  rw [this, takeWhile_append_comma]

theorem split_columns_getLast : ∀ line : Str,
    (split_columns line).getLast? = some (after_last_comma line) := by
  apply split_induction
  · intro l h
    simp [split_columns_of_not_mem h, after_last_comma_of_not_mem h]
  · intro pre rest hpre ih
    rw [split_columns_append hpre, after_last_comma_append, ← ih]
    cases hs : split_columns rest with
    | nil => exact absurd hs (split_columns_ne_nil rest)
    | cons g gs => simp [List.getLast?_cons_cons]

theorem split_join_fields : ∀ fs : List Str, fs ≠ [] → (∀ f ∈ fs, comma ∉ f) →
    split_columns (join_fields fs) = fs := by
  intro fs
  induction fs with
  | nil => intro h; exact absurd rfl h
  | cons f rest ih =>
    intro _ hfree
    cases rest with
    | nil =>
      simp only [join_fields]
      exact split_columns_of_not_mem (hfree f (by simp))
    | cons g gs =>
      rw [join_fields_cons (by simp), split_columns_append (hfree f (by simp))]
      rw [ih (by simp) (fun x hx => hfree x (List.mem_cons_of_mem _ hx))]

/-! ## Facts about frequency mappings -/

theorem lookup_eq_none {m : Freq} {t : Str} : lookup m t = none ↔ t ∉ m.map Prod.fst := by
  induction m with
  | nil => simp [lookup]
  | cons p rest ih =>
    obtain ⟨k, v⟩ := p
    by_cases hk : k = t
    · simp [lookup, hk]
    · have hk2 : ¬ t = k := fun e => hk e.symm
      simp [lookup, hk, hk2, ih]

theorem mem_of_lookup {m : Freq} {t : Str} {v : Int} (h : lookup m t = some v) : (t, v) ∈ m := by
  induction m with
  | nil => simp [lookup] at h
  | cons p rest ih =>
    obtain ⟨k, w⟩ := p
    by_cases hk : k = t
    · simp only [lookup, hk, if_true, Option.some.injEq] at h
      simp [hk, h]
    · simp only [lookup, hk, if_false] at h
      exact List.mem_cons_of_mem _ (ih h)

theorem lookup_of_mem {m : Freq} (hm : WF m) {t : Str} {v : Int} (h : (t, v) ∈ m) :
    lookup m t = some v := by
  induction m with
  | nil => simp at h
  | cons p rest ih =>
    obtain ⟨k, w⟩ := p
    have hnd : k ∉ rest.map Prod.fst ∧ (rest.map Prod.fst).Nodup := by
      simpa [WF] using hm
    rcases List.mem_cons.mp h with e | h
    · simp only [Prod.mk.injEq] at e
      simp [lookup, e.1, e.2]
    · have hk : ¬ k = t := by
        rintro rfl
        exact hnd.1 (List.mem_map.mpr ⟨(k, v), h, rfl⟩)
      simp only [lookup, hk, if_false]
      exact ih hnd.2 h

theorem mem_iff_lookup {m : Freq} (hm : WF m) {t : Str} {v : Int} :
    (t, v) ∈ m ↔ lookup m t = some v :=
  ⟨lookup_of_mem hm, mem_of_lookup⟩

theorem lookup_add (m : Freq) (k : Str) (d : Int) (t : Str) :
    lookup (add m k d) t = if k = t then some (count m k + d) else lookup m t := by
  induction m with
  | nil =>
    by_cases hk : k = t
    · simp [add, lookup, count, hk]
    · simp [add, lookup, hk]
  | cons p rest ih =>
    obtain ⟨k2, v⟩ := p
    by_cases h2 : k2 = k
    · subst h2
      by_cases hk : k2 = t
      · simp [add, lookup, count, hk]
      · simp [add, lookup, hk]
    · by_cases hk : k = t
      · subst hk
        simp [add, lookup, count, h2] at ih ⊢
        exact ih
      · by_cases h3 : k2 = t
        · subst h3
          simp [add, lookup, h2, hk]
        · simp [add, lookup, h2, hk, h3] at ih ⊢
          exact ih

theorem count_add (m : Freq) (k : Str) (d : Int) (t : Str) :
    count (add m k d) t = count m t + (if k = t then d else 0) := by
  unfold count
  rw [lookup_add]
  by_cases hk : k = t
  · simp [hk, count]
  · simp [hk]

theorem keys_add (m : Freq) (k : Str) (d : Int) :
    (add m k d).map Prod.fst =
      if k ∈ m.map Prod.fst then m.map Prod.fst else m.map Prod.fst ++ [k] := by
  induction m with
  | nil => simp [add]
  | cons p rest ih =>
    obtain ⟨k2, v⟩ := p
    by_cases h2 : k2 = k
    · simp [add, h2]
    · have h3 : ¬ k = k2 := fun e => h2 e.symm
      simp only [add, h2, if_false, List.map_cons, ih, List.mem_cons, h3, false_or]
      split <;> simp

theorem mem_keys_add (m : Freq) (k : Str) (d : Int) (t : Str) :
    t ∈ (add m k d).map Prod.fst ↔ t = k ∨ t ∈ m.map Prod.fst := by
  rw [keys_add]
  split
  · constructor
    · exact Or.inr
    · rintro (rfl | h)
      · assumption
      · exact h
  · simp only [List.mem_append, List.mem_singleton]
    tauto

theorem WF_add {m : Freq} (hm : WF m) (k : Str) (d : Int) : WF (add m k d) := by
  unfold WF at *
  rw [keys_add]
  split
  · exact hm
  · rename_i hk
    exact List.Nodup.append hm (List.nodup_singleton k) (by simpa using hk)

theorem length_add (m : Freq) (k : Str) (d : Int) :
    (add m k d).length = if k ∈ m.map Prod.fst then m.length else m.length + 1 := by
  have h := congrArg List.length (keys_add m k d)
  rw [List.length_map] at h
  rw [h]
  split <;> simp

theorem getline_lt {file line rest : Str} (h : getline file = some (line, rest)) :
    rest.length < file.length := by
  cases file with
  | nil => simp [getline] at h
  | cons x xs =>
    simp only [getline] at h
    cases hf : find newline (x :: xs) with
    | none =>
      rw [hf] at h
      simp only [Option.some.injEq, Prod.mk.injEq] at h
      rw [← h.2]; simp
    | some pos =>
      rw [hf] at h
      simp only [Option.some.injEq, Prod.mk.injEq] at h
      obtain ⟨_, _, hlt⟩ := find_some hf
      rw [← h.2, List.length_drop]
      omega

theorem readLines_fuel (fuel : Nat) : ∀ file : Str, file.length ≤ fuel →
    readLines fuel file = readLines file.length file := by
  induction fuel using Nat.strong_induction_on with
  | _ fuel ih =>
    intro file hlen
    cases fuel with
    | zero =>
      have : file.length = 0 := by omega
      rw [this]
    | succ n =>
      cases hg : getline file with
      | none =>
        cases hl : file.length with
        | zero => simp [readLines, hg]
        | succ k => simp [readLines, hg]
      | some lr =>
        obtain ⟨line, rest⟩ := lr
        have hlt := getline_lt hg
        cases hl : file.length with
        | zero => omega
        | succ k =>
          simp only [readLines, hg]
          rw [ih n (Nat.lt_succ_self n) _ (by omega)]
          by_cases hk : k = n
          · rw [hk, ih n (Nat.lt_succ_self n) _ (by omega)]
          · rw [ih k (by omega) _ (by omega)]

/-- The lines of a file: nothing when no character is left, otherwise the line that
`getline` reads followed by the lines of the unread rest. -/
theorem fileLines_unfold (file : Str) :
    fileLines file = match getline file with
      | none => []
      | some (line, rest) => line :: fileLines rest := by
  unfold fileLines
  cases hg : getline file with
  | none =>
    cases hl : file.length with
    | zero => simp [readLines]
    | succ k => simp [readLines, hg]
  | some lr =>
    obtain ⟨line, rest⟩ := lr
    have hlt := getline_lt hg
    cases hl : file.length with
    | zero => omega
    | succ k =>
      simp only [readLines, hg]
      rw [readLines_fuel k rest (by omega)]

theorem scanLoop_eq (fuel : Nat) : ∀ (file : Str) (freq : Freq),
    scanLoop fuel file freq = (readLines fuel file).foldl process_row freq := by
  induction fuel with
  | zero => intro file freq; simp [scanLoop, readLines]
  | succ n ih =>
    intro file freq
    cases hg : getline file with
    | none => simp [scanLoop, readLines, hg]
    | some lr =>
      obtain ⟨line, rest⟩ := lr
      simp [scanLoop, readLines, hg, ih]

/-- More iterations than `file.length` do not change the result of the row loop. -/
theorem scanLoop_fuel (fuel : Nat) (file : Str) (freq : Freq) (h : file.length ≤ fuel) :
    scanLoop fuel file freq = scanLoop file.length file freq := by
  rw [scanLoop_eq, scanLoop_eq, readLines_fuel fuel file h]

theorem fileLines_tail (content : Str) : (fileLines content).tail = fileLines (skip_header content) := by
  rw [fileLines_unfold content]
  unfold skip_header
  cases hg : getline content with
  | none =>
    cases content with
    | nil => simp [fileLines, readLines]
    | cons x xs =>
      simp only [getline] at hg
      cases hf : find newline (x :: xs) <;> simp [hf] at hg
  | some lr => simp

/-- The mapping returned for a readable file is the row loop folded over the lines
after the first one. -/
theorem count_words_in_file_eq (content : Str) :
    count_words_in_file (some content) = (fileLines content).tail.foldl process_row [] := by
  simp only [count_words_in_file]
  rw [scanLoop_eq, fileLines_tail]
  rfl

theorem getline_append {h : Str} (rest : Str) (hh : newline ∉ h) :
    getline (h ++ newline :: rest) = some (h, rest) := by
  have hf := find_append_cons rest hh
  have h1 : List.drop (h.length + 1) (h ++ newline :: rest) = rest := by
    rw [List.drop_append_eq_append_drop]
    simp
  have h2 : List.take h.length (h ++ newline :: rest) = h := by simp
  cases hc : h ++ newline :: rest with
  | nil => simp at hc
  | cons x xs =>
    simp only [getline]
    rw [← hc, hf]
    simp only [h1, h2]

theorem getline_of_not_mem {h : Str} (hne : h ≠ []) (hh : newline ∉ h) :
    getline h = some (h, []) := by
  cases h with
  | nil => exact absurd rfl hne
  | cons x xs =>
    simp only [getline]
    rw [find_none.mpr hh]

theorem skip_header_append {h : Str} (rest : Str) (hh : newline ∉ h) :
    skip_header (h ++ newline :: rest) = rest := by
  simp [skip_header, getline_append rest hh]

theorem fileLines_append {h : Str} (rest : Str) (hh : newline ∉ h) :
    fileLines (h ++ newline :: rest) = h :: fileLines rest := by
  rw [fileLines_unfold, getline_append rest hh]

theorem fileLines_nil : fileLines [] = [] := rfl

theorem fileLines_of_not_mem {h : Str} (hne : h ≠ []) (hh : newline ∉ h) : fileLines h = [h] := by
  rw [fileLines_unfold, getline_of_not_mem hne hh]
  rfl

/-- A file written as lines that are each ended by `'\n'` is read back as these lines. -/
theorem fileLines_unlines (ls : List Str) (h : ∀ l ∈ ls, newline ∉ l) :
    fileLines (ls.flatMap (fun l => l ++ [newline])) = ls := by
  induction ls with
  | nil => rfl
  | cons l rest ih =>
    have hl : newline ∉ l := h l (by simp)
    have hr := ih (fun x hx => h x (List.mem_cons_of_mem _ hx))
    simp only [List.flatMap_cons, List.append_assoc, List.singleton_append]
    rw [fileLines_append _ hl, hr]

/-! ## Facts about the row loop -/

theorem process_row_eq (freq : Freq) (line : Str) :
    process_row freq line =
      if rowCounted line = true then
        add freq (clean_word ((split_columns line).getD 12 [])) 1
      else freq := by
  unfold process_row rowCounted target_idx
  by_cases h1 : (split_columns line).length > 12
  · by_cases h2 : clean_word ((split_columns line).getD 12 []) = []
    · simp [h1, h2]
    · simp [h1, h2]
  · simp [h1]

theorem rowYields_iff (t line : Str) :
    rowYields t line = true ↔
      rowCounted line = true ∧ clean_word ((split_columns line).getD 12 []) = t := by
  unfold rowYields rowCounted
  simp only [decide_eq_true_eq]
  constructor
  · rintro ⟨h1, h2, h3⟩
    exact ⟨⟨h1, by rw [h2]; exact h3⟩, h2⟩
  · rintro ⟨⟨h1, h2⟩, h3⟩
    exact ⟨h1, h3, by rw [← h3]; exact h2⟩

theorem WF_process_row {freq : Freq} (h : WF freq) (line : Str) : WF (process_row freq line) := by
  rw [process_row_eq]
  split
  · exact WF_add h _ _
  · exact h

theorem mem_keys_process_row (freq : Freq) (line t : Str) :
    t ∈ (process_row freq line).map Prod.fst ↔
      t ∈ freq.map Prod.fst ∨ rowYields t line = true := by
  rw [process_row_eq]
  by_cases hc : rowCounted line = true
  · rw [if_pos hc, mem_keys_add, rowYields_iff]
    constructor
    · rintro (h | h)
      · exact Or.inr ⟨hc, h.symm⟩
      · exact Or.inl h
    · rintro (h | h)
      · exact Or.inr h
      · exact Or.inl h.2.symm
  · rw [if_neg hc]
    constructor
    · exact Or.inl
    · rintro (h | h)
      · exact h
      · exact absurd ((rowYields_iff t line).mp h).1 hc

theorem WF_rows (rows : List Str) : ∀ freq : Freq, WF freq → WF (rows.foldl process_row freq) := by
  induction rows with
  | nil => intro freq h; exact h
  | cons r rs ih => intro freq h; exact ih _ (WF_process_row h r)

theorem mem_keys_rows (rows : List Str) (t : Str) : ∀ freq : Freq,
    t ∈ (rows.foldl process_row freq).map Prod.fst ↔
      t ∈ freq.map Prod.fst ∨ 0 < rows.countP (rowYields t) := by
  induction rows with
  | nil => intro freq; simp
  | cons r rs ih =>
    intro freq
    rw [List.foldl_cons, ih, mem_keys_process_row, List.countP_cons]
    by_cases h : rowYields t r = true
    · simp [h]
    · simp [h]

theorem WF_count_words_in_file (file : Option Str) : WF (count_words_in_file file) := by
  cases file with
  | none => simp [count_words_in_file, WF]
  | some content =>
    rw [count_words_in_file_eq]
    exact WF_rows _ _ (by simp [WF])

theorem count_of_not_mem {m : Freq} {t : Str} (h : t ∉ m.map Prod.fst) : count m t = 0 := by
  simp [count, lookup_eq_none.mpr h]

theorem merge_maps_cons (g : Freq) (p : Str × Int) (rest : Freq) :
    merge_maps g (p :: rest) = merge_maps (add g p.1 p.2) rest := rfl

theorem WF_cons {p : Str × Int} {rest : Freq} (h : WF (p :: rest)) :
    p.1 ∉ rest.map Prod.fst ∧ WF rest := by
  simpa [WF] using h

theorem lookup_merge_maps (loc : Freq) (hloc : WF loc) (t : Str) : ∀ g : Freq,
    lookup (merge_maps g loc) t =
      if t ∈ loc.map Prod.fst then some (count g t + count loc t) else lookup g t := by
  induction loc with
  | nil => intro g; simp [merge_maps]
  | cons p rest ih =>
    intro g
    obtain ⟨hp, hrest⟩ := WF_cons hloc
    obtain ⟨k, v⟩ := p
    rw [merge_maps_cons, ih hrest]
    by_cases hk : k = t
    · subst hk
      simp only at hp
      rw [if_neg hp, lookup_add]
      simp [count, lookup]
    · have hk2 : ¬ t = k := fun e => hk e.symm
      by_cases hm : t ∈ rest.map Prod.fst
      · rw [if_pos hm, if_pos (by simp [hm]), count_add]
        simp [count, lookup, hk]
      · rw [if_neg hm, lookup_add]
        simp only at hm
        simp [hk, hk2, hm]

theorem count_merge_maps (g loc : Freq) (hloc : WF loc) (t : Str) :
    count (merge_maps g loc) t = count g t + count loc t := by
  by_cases hm : t ∈ loc.map Prod.fst
  · simp [count, lookup_merge_maps loc hloc t g, hm]
  · rw [count_of_not_mem hm]
    simp [count, lookup_merge_maps loc hloc t g, hm]

theorem mem_keys_merge_maps (loc : Freq) (t : Str) : ∀ g : Freq,
    t ∈ (merge_maps g loc).map Prod.fst ↔ t ∈ g.map Prod.fst ∨ t ∈ loc.map Prod.fst := by
  induction loc with
  | nil => intro g; simp [merge_maps]
  | cons p rest ih =>
    intro g
    rw [merge_maps_cons, ih, mem_keys_add]
    simp only [List.map_cons, List.mem_cons]
    tauto

theorem WF_merge_maps (loc : Freq) : ∀ g : Freq, WF g → WF (merge_maps g loc) := by
  induction loc with
  | nil => intro g h; exact h
  | cons p rest ih => intro g h; exact ih _ (WF_add h _ _)

theorem count_foldl_merge (locals : List Freq) (hl : ∀ loc ∈ locals, WF loc) (t : Str) :
    ∀ g : Freq, count (locals.foldl merge_maps g) t
      = count g t + (locals.map (fun loc => count loc t)).sum := by
  induction locals with
  | nil => intro g; simp
  | cons a rest ih =>
    intro g
    rw [List.foldl_cons, ih (fun loc h => hl loc (List.mem_cons_of_mem _ h)),
      count_merge_maps g a (hl a (by simp))]
    simp only [List.map_cons, List.sum_cons]
    ring

theorem WF_foldl_merge (locals : List Freq) : ∀ g : Freq, WF g →
    WF (locals.foldl merge_maps g) := by
  induction locals with
  | nil => intro g h; exact h
  | cons a rest ih => intro g h; exact ih _ (WF_merge_maps a g h)

theorem WF_nil : WF [] := by simp [WF]

theorem lookup_merge_two (a b : Freq) (ha : WF a) (hb : WF b) (t : Str) :
    lookup (merge_maps (merge_maps [] a) b) t =
      if t ∈ a.map Prod.fst ∨ t ∈ b.map Prod.fst then some (count a t + count b t) else none := by
  rw [lookup_merge_maps b hb, count_merge_maps [] a ha, lookup_merge_maps a ha]
  by_cases h1 : t ∈ a.map Prod.fst <;> by_cases h2 : t ∈ b.map Prod.fst
  · simp [h1, h2, count, lookup]
  · simp only at h1 h2
    simp [h1, h2, count, lookup, lookup_eq_none.mpr h2]
  · simp only at h1 h2
    simp [h1, h2, count, lookup]
  · simp only at h1 h2
    simp [h1, h2, lookup]

/-- Two mappings with distinct keys and the same lookups have the same entries. -/
theorem perm_of_lookup_eq {m1 m2 : Freq} (h1 : WF m1) (h2 : WF m2)
    (h : ∀ t, lookup m1 t = lookup m2 t) : m1.Perm m2 := by
  apply (List.perm_ext_iff_of_nodup (List.Nodup.of_map _ h1) (List.Nodup.of_map _ h2)).mpr
  rintro ⟨k, v⟩
  rw [mem_iff_lookup h1, mem_iff_lookup h2, h k]

/-! ## Facts about the string order and `sort_by` -/

/-- The comparison `strLt` is the strict lexicographic order of the character values. -/
theorem strLt_iff_lex : ∀ a b : Str, strLt a b = true ↔ List.Lex (fun x y : Nat => x < y) a b := by
  intro a
  induction a with
  | nil =>
    intro b
    cases b with
    | nil => simp [strLt]
    | cons y ys => simp [strLt, List.Lex.nil]
  | cons x xs ih =>
    intro b
    cases b with
    | nil => simp [strLt]
    | cons y ys =>
      rcases Nat.lt_trichotomy x y with h | h | h
      · simp only [strLt, h, if_true, true_iff]
        exact List.Lex.rel h
      · subst h
        simp only [strLt, Nat.lt_irrefl, if_false, ih]
        constructor
        · exact List.Lex.cons
        · intro hl
          cases hl with
          | cons h => exact h
          | rel h => exact absurd h (Nat.lt_irrefl _)
      · have hn : ¬ x < y := by omega
        simp only [strLt, hn, if_false, h, if_true]
        constructor
        · intro hf; exact absurd hf (by simp)
        · intro hl
          cases hl with
          | cons _ => omega
          | rel h2 => omega

theorem strLt_irrefl : ∀ a : Str, strLt a a = false := by
  intro a
  induction a with
  | nil => rfl
  | cons x xs ih => simp [strLt, ih]

theorem strLt_trans : ∀ a b c : Str, strLt a b = true → strLt b c = true → strLt a c = true := by
  intro a
  induction a with
  | nil =>
    intro b c hab hbc
    cases b with
    | nil => simp [strLt] at hab
    | cons y ys =>
      cases c with
      | nil => simp [strLt] at hbc
      | cons z zs => rfl
  | cons x xs ih =>
    intro b c hab hbc
    cases b with
    | nil => simp [strLt] at hab
    | cons y ys =>
      cases c with
      | nil => simp [strLt] at hbc
      | cons z zs =>
        simp only [strLt] at hab hbc ⊢
        by_cases hxy : x < y
        · by_cases hyz : y < z
          · have : x < z := by omega
            simp [this]
          · by_cases hzy : z < y
            · simp [hyz, hzy] at hbc
            · have : x < z := by omega
              simp [this]
        · by_cases hyx : y < x
          · simp [hxy, hyx] at hab
          · have hxy2 : x = y := by omega
            subst hxy2
            simp only [hxy, if_false] at hab
            by_cases hyz : x < z
            · simp [hyz]
            · by_cases hzy : z < x
              · simp [hyz, hzy] at hbc
              · simp only [hyz, hzy, if_false] at hbc ⊢
                exact ih ys zs hab hbc

theorem strLt_asymm (a b : Str) (h : strLt a b = true) : strLt b a = false := by
  cases hba : strLt b a with
  | false => rfl
  | true =>
    have := strLt_trans a b a h hba
    rw [strLt_irrefl] at this
    exact absurd this (by simp)

theorem strLt_total : ∀ a b : Str, strLt a b = false → strLt b a = false → a = b := by
  intro a
  induction a with
  | nil =>
    intro b hab _
    cases b with
    | nil => rfl
    | cons y ys => simp [strLt] at hab
  | cons x xs ih =>
    intro b hab hba
    cases b with
    | nil => simp [strLt] at hba
    | cons y ys =>
      simp only [strLt] at hab hba
      by_cases hxy : x < y
      · simp [hxy] at hab
      · by_cases hyx : y < x
        · simp [hyx] at hba
        · have : x = y := by omega
          subst this
          simp only [hxy, if_false] at hab hba
          rw [ih ys hab hba]

theorem perm_insert_by {α : Type} (comp : α → α → Bool) (x : α) (l : List α) :
    (insert_by comp x l).Perm (x :: l) := by
  induction l with
  | nil => exact List.Perm.refl _
  | cons y ys ih =>
    simp only [insert_by]
    split
    · exact List.Perm.refl _
    · exact ((List.Perm.cons y ih).trans (List.Perm.swap x y ys))

theorem perm_sort_loop {α : Type} (comp : α → α → Bool) (l : List α) : ∀ acc : List α,
    (l.foldl (fun sorted x => insert_by comp x sorted) acc).Perm (acc ++ l) := by
  induction l with
  | nil => intro acc; simp
  | cons x xs ih =>
    intro acc
    rw [List.foldl_cons]
    exact (ih _).trans (((perm_insert_by comp x acc).append_right xs).trans
      (List.perm_middle.symm))

theorem perm_sort_by {α : Type} (comp : α → α → Bool) (l : List α) : (sort_by comp l).Perm l := by
  have := perm_sort_loop comp l []
  simpa [sort_by] using this

theorem pairwise_insert_by {α : Type} (comp : α → α → Bool)
    (hasym : ∀ a b, comp a b = true → comp b a = false)
    (htrans : ∀ a b c, comp a b = true → comp b c = true → comp a c = true)
    (x : α) (l : List α) (hl : l.Pairwise (fun a b => comp b a = false)) :
    (insert_by comp x l).Pairwise (fun a b => comp b a = false) := by
  induction l with
  | nil => simp [insert_by]
  | cons y ys ih =>
    obtain ⟨hy, hys⟩ := List.pairwise_cons.mp hl
    simp only [insert_by]
    by_cases hc : comp x y = true
    · rw [if_pos hc]
      apply List.pairwise_cons.mpr
      refine ⟨?_, hl⟩
      intro z hz
      rcases List.mem_cons.mp hz with rfl | hz
      · exact hasym _ _ hc
      · cases hzx : comp z x with
        | false => rfl
        | true =>
          have := htrans z x y hzx hc
          rw [hy z hz] at this
          exact absurd this (by simp)
    · rw [if_neg hc]
      apply List.pairwise_cons.mpr
      refine ⟨?_, ih hys⟩
      intro z hz
      have hz2 : z ∈ x :: ys := (perm_insert_by comp x ys).subset hz
      rcases List.mem_cons.mp hz2 with rfl | hz2
      · simpa using hc
      · exact hy z hz2

theorem pairwise_sort_loop {α : Type} (comp : α → α → Bool)
    (hasym : ∀ a b, comp a b = true → comp b a = false)
    (htrans : ∀ a b c, comp a b = true → comp b c = true → comp a c = true)
    (l : List α) : ∀ acc : List α, acc.Pairwise (fun a b => comp b a = false) →
      (l.foldl (fun sorted x => insert_by comp x sorted) acc).Pairwise
        (fun a b => comp b a = false) := by
  induction l with
  | nil => intro acc h; exact h
  | cons x xs ih =>
    intro acc h
    rw [List.foldl_cons]
    exact ih _ (pairwise_insert_by comp hasym htrans x acc h)

/-- The result of `sort_by` is ordered: no element is after a later one. -/
theorem pairwise_sort_by {α : Type} (comp : α → α → Bool)
    (hasym : ∀ a b, comp a b = true → comp b a = false)
    (htrans : ∀ a b c, comp a b = true → comp b c = true → comp a c = true)
    (l : List α) : (sort_by comp l).Pairwise (fun a b => comp b a = false) :=
  pairwise_sort_loop comp hasym htrans l [] List.Pairwise.nil

/-! ## Facts about the per-file report -/

theorem max_loop_ge (l : Freq) : ∀ init : Int,
    init ≤ l.foldl (fun max_freq p => if p.2 > max_freq then p.2 else max_freq) init ∧
    (∀ p ∈ l, p.2 ≤ l.foldl (fun max_freq p => if p.2 > max_freq then p.2 else max_freq) init) ∧
    (l.foldl (fun max_freq p => if p.2 > max_freq then p.2 else max_freq) init = init ∨
      ∃ p ∈ l, p.2 = l.foldl (fun max_freq p => if p.2 > max_freq then p.2 else max_freq) init) := by
  induction l with
  | nil => intro init; simp
  | cons q rest ih =>
    intro init
    simp only [List.foldl_cons]
    by_cases hq : q.2 > init
    · obtain ⟨h1, h2, h3⟩ := ih q.2
      rw [if_pos hq]
      refine ⟨by omega, ?_, ?_⟩
      · intro p hp
        rcases List.mem_cons.mp hp with rfl | hp
        · exact h1
        · exact h2 p hp
      · rcases h3 with h3 | ⟨p, hp, h3⟩
        · exact Or.inr ⟨q, by simp, h3.symm⟩
        · exact Or.inr ⟨p, List.mem_cons_of_mem _ hp, h3⟩
    · obtain ⟨h1, h2, h3⟩ := ih init
      rw [if_neg hq]
      refine ⟨h1, ?_, ?_⟩
      · intro p hp
        rcases List.mem_cons.mp hp with rfl | hp
        · omega
        · exact h2 p hp
      · rcases h3 with h3 | ⟨p, hp, h3⟩
        · exact Or.inl h3
        · exact Or.inr ⟨p, List.mem_cons_of_mem _ hp, h3⟩

theorem max_freq_of_eq {loc : Freq} {m : Int} (hmem : ∃ t, (t, m) ∈ loc)
    (hmax : ∀ p ∈ loc, p.2 ≤ m) (hm : 0 < m) : max_freq_of loc = m := by
  obtain ⟨h1, h2, h3⟩ := max_loop_ge loc 0
  obtain ⟨t, ht⟩ := hmem
  have hge : m ≤ max_freq_of loc := h2 (t, m) ht
  rcases h3 with h3 | ⟨p, hp, h3⟩
  · unfold max_freq_of at hge ⊢
    omega
  · have := hmax p hp
    unfold max_freq_of at hge ⊢
    omega

theorem top_words_loop (l : Freq) (m : Int) : ∀ acc : List Str,
    l.foldl (fun top_words p => if p.2 = m then top_words ++ [p.1] else top_words) acc
      = acc ++ (l.filter (fun p => decide (p.2 = m))).map Prod.fst := by
  induction l with
  | nil => intro acc; simp
  | cons q rest ih =>
    intro acc
    rw [List.foldl_cons, ih]
    by_cases hq : q.2 = m
    · simp [hq, List.filter_cons]
    · simp [hq, List.filter_cons]

theorem top_words_of_eq (loc : Freq) (m : Int) :
    top_words_of loc m = (loc.filter (fun p => decide (p.2 = m))).map Prod.fst := by
  unfold top_words_of
  rw [top_words_loop]
  simp

theorem mem_top_words_of {loc : Freq} (m : Int) (t : Str) :
    t ∈ top_words_of loc m ↔ (t, m) ∈ loc := by
  rw [top_words_of_eq]
  simp only [List.mem_map, List.mem_filter, decide_eq_true_eq]
  constructor
  · rintro ⟨⟨k, v⟩, ⟨hp, hv⟩, hk⟩
    simp only at hv hk
    subst hv hk
    exact hp
  · intro h
    exact ⟨(t, m), ⟨h, rfl⟩, rfl⟩

theorem nodup_top_words_of {loc : Freq} (h : WF loc) (m : Int) : (top_words_of loc m).Nodup := by
  rw [top_words_of_eq]
  exact List.Nodup.sublist (List.Sublist.map _ (List.filter_sublist _)) h

/-! ## Facts about the 32-bit sums of `merge_maps` -/

theorem wrap_int32_of_inIntRange {x : Int} (h : inIntRange x) : wrap_int32 x = x := by
  unfold inIntRange at h
  unfold wrap_int32
  omega

theorem lookup_add_int32 (m : Freq) (k : Str) (d : Int) (t : Str) :
    lookup (add_int32 m k d) t
      = if k = t then some (wrap_int32 (count m k + d)) else lookup m t := by
  induction m with
  | nil =>
    by_cases hk : k = t
    · simp [add_int32, lookup, count, hk]
    · simp [add_int32, lookup, hk]
  | cons p rest ih =>
    obtain ⟨k2, v⟩ := p
    by_cases h2 : k2 = k
    · subst h2
      by_cases hk : k2 = t
      · simp [add_int32, lookup, count, hk]
      · simp [add_int32, lookup, hk]
    · by_cases hk : k = t
      · subst hk
        simp [add_int32, lookup, count, h2] at ih ⊢
        exact ih
      · by_cases h3 : k2 = t
        · subst h3
          simp [add_int32, lookup, h2, hk]
        · simp [add_int32, lookup, h2, hk, h3] at ih ⊢
          exact ih

theorem count_add_int32 (m : Freq) (k : Str) (d : Int) (t : Str) :
    count (add_int32 m k d) t = if k = t then wrap_int32 (count m k + d) else count m t := by
  unfold count
  rw [lookup_add_int32]
  by_cases hk : k = t
  · simp [hk, count]
  · simp [hk]

/-- In the range of `int` the 32-bit sum is the exact sum. -/
theorem add_int32_eq (m : Freq) (k : Str) (d : Int) (h : inIntRange (count m k + d)) :
    add_int32 m k d = add m k d := by
  induction m with
  | nil =>
    simp only [count, lookup, Option.getD_none] at h
    simp only [add_int32, add]
    rw [wrap_int32_of_inIntRange h]
  | cons p rest ih =>
    obtain ⟨k2, v⟩ := p
    by_cases h2 : k2 = k
    · simp only [count, lookup, h2, if_true, Option.getD_some] at h
      simp only [add_int32, add, h2, if_true]
      rw [wrap_int32_of_inIntRange h]
    · simp only [count, lookup, h2, if_false] at h
      simp only [add_int32, add, h2, if_false]
      rw [ih h]

theorem merge_maps_int32_cons (g : Freq) (p : Str × Int) (rest : Freq) :
    merge_maps_int32 g (p :: rest) = merge_maps_int32 (add_int32 g p.1 p.2) rest := rfl

theorem lookup_merge_maps_int32 (loc : Freq) (hloc : WF loc) (t : Str) : ∀ g : Freq,
    lookup (merge_maps_int32 g loc) t =
      if t ∈ loc.map Prod.fst then some (wrap_int32 (count g t + count loc t))
      else lookup g t := by
  induction loc with
  | nil => intro g; simp [merge_maps_int32]
  | cons p rest ih =>
    intro g
    obtain ⟨hp, hrest⟩ := WF_cons hloc
    obtain ⟨k, v⟩ := p
    rw [merge_maps_int32_cons, ih hrest]
    by_cases hk : k = t
    · subst hk
      simp only at hp
      rw [if_neg hp, lookup_add_int32]
      simp [count, lookup]
    · have hk2 : ¬ t = k := fun e => hk e.symm
      by_cases hm : t ∈ rest.map Prod.fst
      · rw [if_pos hm, if_pos (by simp [hm]), count_add_int32]
        simp [count, lookup, hk]
      · rw [if_neg hm, lookup_add_int32]
        simp only at hm
        simp [hk, hk2, hm]

theorem count_merge_maps_int32 (g loc : Freq) (hloc : WF loc) (t : Str)
    (h : inIntRange (count g t + count loc t)) :
    count (merge_maps_int32 g loc) t = count g t + count loc t := by
  by_cases hm : t ∈ loc.map Prod.fst
  · simp [count, lookup_merge_maps_int32 loc hloc t g, hm]
    exact wrap_int32_of_inIntRange h
  · rw [count_of_not_mem hm]
    simp [count, lookup_merge_maps_int32 loc hloc t g, hm]

/-- While every sum stays in the range of `int`, `merge_maps_int32` is `merge_maps`. -/
theorem merge_maps_int32_eq (loc : Freq) (hloc : WF loc) : ∀ g : Freq,
    (∀ t, inIntRange (count g t + count loc t)) → merge_maps_int32 g loc = merge_maps g loc := by
  induction loc with
  | nil => intro g _; rfl
  | cons p rest ih =>
    intro g hr
    obtain ⟨hp, hrest⟩ := WF_cons hloc
    obtain ⟨k, v⟩ := p
    have hk : inIntRange (count g k + v) := by
      have := hr k
      simpa [count, lookup] using this
    rw [merge_maps_int32_cons, merge_maps_cons]
    simp only
    rw [add_int32_eq g k v hk]
    apply ih hrest
    intro t
    rw [count_add]
    by_cases hkt : k = t
    · subst hkt
      simp only at hp
      rw [if_pos rfl, count_of_not_mem hp]
      simpa using hk
    · rw [if_neg hkt]
      have := hr t
      simpa [count, lookup, hkt] using this

theorem count_foldl_merge_int32 (locals : List Freq) (hl : ∀ loc ∈ locals, WF loc) (t : Str) :
    ∀ g : Freq,
    (∀ n, inIntRange (count g t + ((locals.take n).map (fun loc => count loc t)).sum)) →
    count (locals.foldl merge_maps_int32 g) t
      = count g t + (locals.map (fun loc => count loc t)).sum := by
  induction locals with
  | nil => intro g _; simp
  | cons a rest ih =>
    intro g hr
    have h1 : inIntRange (count g t + count a t) := by
      have := hr 1
      simpa using this
    have hstep := count_merge_maps_int32 g a (hl a (by simp)) t h1
    rw [List.foldl_cons, ih (fun loc h => hl loc (List.mem_cons_of_mem _ h)), hstep]
    · simp only [List.map_cons, List.sum_cons]
      ring
    · intro n
      rw [hstep]
      have := hr (n + 1)
      simp only [List.take_succ_cons, List.map_cons, List.sum_cons] at this
      rw [add_assoc]
      exact this

/-- C3: `clean_word w` keeps exactly the alphabetic characters of `w`, in their order,
each replaced by its lowercase form; it is empty when `w` has no alphabetic character;
and `clean_word "Hello123" = "hello"`. -/
theorem C3_clean_word (w : Str) :
    clean_word w = keepAlphaLower w ∧
    ((∀ c ∈ w, isalpha c = false) → clean_word w = []) ∧
    clean_word (str "Hello123") = str "hello" := by
  refine ⟨clean_word_eq w, ?_, by decide⟩
  intro h
  rw [clean_word_eq]
  unfold keepAlphaLower
  rw [List.filter_eq_nil_iff.mpr (fun c hc => by simp [h c hc])]
  rfl

/-- A field of digits and punctuation has the empty token. -/
theorem C3_witness :
    (∀ c ∈ str "12.5%", isalpha c = false) ∧ clean_word (str "12.5%") = [] :=
  ⟨by decide, (C3_clean_word (str "12.5%")).2.1 (by decide)⟩

/-- C4: the fields built by the comma-splitting loop are comma-free and join, with `','`
between consecutive fields, to the line, and they are the only non-empty sequence of
comma-free strings that does (a row has at least one field; the sequence without any field
also joins to the empty line); there are (number of commas + 1) of them, the last one is
the remainder after the last comma, and a line without comma is its own single field. -/
theorem C4_split_columns (line : Str) :
    join_fields (split_columns line) = line ∧
    (∀ f ∈ split_columns line, comma ∉ f) ∧
    (∀ fs : List Str, fs ≠ [] → (∀ f ∈ fs, comma ∉ f) → join_fields fs = line →
      fs = split_columns line) ∧
    (split_columns line).length = commas line + 1 ∧
    (split_columns line).getLast? = some (after_last_comma line) ∧
    (commas line = 0 → split_columns line = [line]) ∧
    split_columns [] = [[]] := by
  refine ⟨join_split_columns line, split_columns_comma_free line, ?_,
    split_columns_length line, split_columns_getLast line, ?_, by decide⟩
  · intro fs hne hfree hjoin
    rw [← hjoin, split_join_fields fs hne hfree]
  · intro h
    exact split_columns_of_not_mem (List.count_eq_zero.mp h)

/-- The line `a,,b` has the three fields `a`, the empty field and `b`, and no others. -/
theorem C4_witness :
    [str "a", str "", str "b"] = split_columns (str "a,,b") ∧
    (commas (str "abc") = 0 ∧ split_columns (str "abc") = [str "abc"]) :=
  ⟨(C4_split_columns (str "a,,b")).2.2.1 [str "a", str "", str "b"]
      (by decide) (by decide) (by decide),
    by decide, (C4_split_columns (str "abc")).2.2.2.2.2.1 (by decide)⟩

/-- C5, as stated, fails: merging `{"x":2147483647}` and then `{"x":1}` into the empty
global mapping leaves the count -2147483648 for `x`, not the sum 2147483648 of the two
counts. -/
theorem C5_counterexample :
    (∀ loc ∈ [[(str "x", (2147483647 : Int))], [(str "x", 1)]], WF loc) ∧
    merge_all_int32 [[(str "x", 2147483647)], [(str "x", 1)]] = [(str "x", -2147483648)] ∧
    ¬ (count (merge_all_int32 [[(str "x", 2147483647)], [(str "x", 1)]]) (str "x")
        = ([[(str "x", (2147483647 : Int))], [(str "x", 1)]].map
            (fun loc => count loc (str "x"))).sum) := by
  decide

/-- C5, amended: after the per-file mappings `locals` were merged one after another into
the empty global mapping, the global count of a token is the sum of its counts in the
per-file mappings (0 where it is absent), provided that no addition overflows: every
partial sum of the token's counts, in merge order, is in the range of `int`.  Merging
`{"x":2}` and then `{"x":3,"y":1}`, in either iteration order, gives `{"x":5,"y":1}`, of
size 2. -/
theorem C5_merge_sums_in_range (locals : List Freq) (hl : ∀ loc ∈ locals, WF loc) (t : Str)
    (hr : ∀ n, inIntRange (((locals.take n).map (fun loc => count loc t)).sum)) :
    count (merge_all_int32 locals) t = (locals.map (fun loc => count loc t)).sum ∧
    (∀ loc ∈ locals, t ∉ loc.map Prod.fst → count loc t = 0) ∧
    merge_all_int32 [[(str "x", 2)], [(str "x", 3), (str "y", 1)]]
      = [(str "x", 5), (str "y", 1)] ∧
    merge_all_int32 [[(str "x", 2)], [(str "y", 1), (str "x", 3)]]
      = [(str "x", 5), (str "y", 1)] ∧
    (merge_all_int32 [[(str "x", 2)], [(str "x", 3), (str "y", 1)]]).length = 2 := by
  refine ⟨?_, fun loc _ h => count_of_not_mem h, by decide, by decide, by decide⟩
  have := count_foldl_merge_int32 locals hl t [] (by
    intro n
    have := hr n
    simpa [count, lookup] using this)
  simpa [merge_all_int32, count, lookup] using this

/-- The global count of `x` after merging `{"x":2}` and `{"x":3,"y":1}` is 2 + 3: the
partial sums 0, 2 and 5 are in range; the first mapping, which has no `y`, counts 0 for it. -/
theorem C5_witness :
    ((∀ loc ∈ [[(str "x", (2 : Int))], [(str "x", 3), (str "y", 1)]], WF loc) ∧
      (∀ n, inIntRange ((([[(str "x", (2 : Int))], [(str "x", 3), (str "y", 1)]].take n).map
        (fun loc => count loc (str "x"))).sum))) ∧
    count (merge_all_int32 [[(str "x", 2)], [(str "x", 3), (str "y", 1)]]) (str "x")
      = ([[(str "x", (2 : Int))], [(str "x", 3), (str "y", 1)]].map
          (fun loc => count loc (str "x"))).sum ∧
    (str "y" ∉ [(str "x", (2 : Int))].map Prod.fst ∧ count [(str "x", 2)] (str "y") = 0) :=
  ⟨⟨by decide, fun n => by
      rcases n with _ | _ | n
      · decide
      · decide
      · simp only [List.take_succ_cons, List.take_nil]
        decide⟩,
    (C5_merge_sums_in_range [[(str "x", 2)], [(str "x", 3), (str "y", 1)]] (by decide)
      (str "x") (fun n => by
        rcases n with _ | _ | n
        · decide
        · decide
        · simp only [List.take_succ_cons, List.take_nil]
          decide)).1,
    by decide,
    (C5_merge_sums_in_range [[(str "x", 2)], [(str "x", 3), (str "y", 1)]] (by decide)
      (str "y") (fun n => by
        rcases n with _ | _ | n
        · decide
        · decide
        · simp only [List.take_succ_cons, List.take_nil]
          decide)).2.1
      [(str "x", 2)] (by decide) (by decide)⟩

/-- C6: merging `a` then `b` into a fresh global mapping gives the same mapping as merging
`b` then `a`: every token has the same entry in both, and both have the same entries. -/
theorem C6_merge_either_order (a b : Freq) (ha : WF a) (hb : WF b) :
    (∀ t, lookup (merge_maps (merge_maps [] a) b) t = lookup (merge_maps (merge_maps [] b) a) t) ∧
    (merge_maps (merge_maps [] a) b).Perm (merge_maps (merge_maps [] b) a) := by
  have hlook : ∀ t, lookup (merge_maps (merge_maps [] a) b) t
      = lookup (merge_maps (merge_maps [] b) a) t := by
    intro t
    rw [lookup_merge_two a b ha hb, lookup_merge_two b a hb ha]
    by_cases h : t ∈ a.map Prod.fst ∨ t ∈ b.map Prod.fst
    · rw [if_pos h, if_pos (Or.symm h), add_comm]
    · rw [if_neg h, if_neg (fun h2 => h (Or.symm h2))]
  exact ⟨hlook, perm_of_lookup_eq (WF_merge_maps b _ (WF_merge_maps a _ WF_nil))
    (WF_merge_maps a _ (WF_merge_maps b _ WF_nil)) hlook⟩

/-- Merging `{"a":1,"x":2}` and `{"b":1,"x":3}` in either order gives the same entries. -/
theorem C6_witness :
    (WF [(str "a", 1), (str "x", 2)] ∧ WF [(str "b", 1), (str "x", 3)]) ∧
    (merge_maps (merge_maps [] [(str "a", 1), (str "x", 2)]) [(str "b", 1), (str "x", 3)]).Perm
      (merge_maps (merge_maps [] [(str "b", 1), (str "x", 3)]) [(str "a", 1), (str "x", 2)]) :=
  ⟨by decide,
    (C6_merge_either_order [(str "a", 1), (str "x", 2)] [(str "b", 1), (str "x", 3)]
      (by decide) (by decide)).2⟩

/-- C7: for a per-file mapping whose maximum count `m` is greater than 1, the report of
`main` gives `m` with a token list that holds exactly the tokens of count `m`, each once,
in strictly ascending lexicographic order; for `{"cat":3,"dog":3,"bird":1}`, whatever the
iteration order, the report is `["cat","dog"]` with count 3. -/
theorem C7_most_frequent_report (loc : Freq) (m : Int) (hwf : WF loc)
    (hmem : ∃ t, (t, m) ∈ loc) (hmax : ∀ p ∈ loc, p.2 ≤ m) (hm : 1 < m) :
    (∃ toks : List Str, file_report loc = FileReport.mostFrequent m toks ∧
      (∀ t, t ∈ toks ↔ lookup loc t = some m) ∧ toks.Nodup ∧
      toks.Pairwise (fun a b => List.Lex (fun x y : Nat => x < y) a b)) ∧
    (∀ l : Freq, l.Perm [(str "cat", 3), (str "dog", 3), (str "bird", 1)] →
      file_report l = FileReport.mostFrequent 3 [str "cat", str "dog"]) := by
  constructor
  · have hmf : max_freq_of loc = m := max_freq_of_eq hmem hmax (by omega)
    have hne : loc.isEmpty = false := by
      obtain ⟨t, ht⟩ := hmem
      cases loc with
      | nil => simp at ht
      | cons p rest => rfl
    have hperm := perm_sort_by strLt (top_words_of loc m)
    have hnd : (sort_by strLt (top_words_of loc m)).Nodup :=
      (hperm.nodup_iff).mpr (nodup_top_words_of hwf m)
    refine ⟨sort_by strLt (top_words_of loc m), ?_, ?_, hnd, ?_⟩
    · have hgt : ¬ m ≤ 1 := by omega
      simp [file_report, hne, hmf, hgt]
    · intro t
      rw [hperm.mem_iff, mem_top_words_of, mem_iff_lookup hwf]
    · have hs := pairwise_sort_by strLt strLt_asymm strLt_trans (top_words_of loc m)
      refine List.Pairwise.imp₂ ?_ hs hnd
      intro a b hba hne2
      apply (strLt_iff_lex a b).mp
      cases hab : strLt a b with
      | true => rfl
      | false => exact absurd (strLt_total a b hab hba) hne2
  · have hall : ∀ l ∈ List.permutations' [(str "cat", (3 : Int)), (str "dog", 3), (str "bird", 1)],
        file_report l = FileReport.mostFrequent 3 [str "cat", str "dog"] := by decide
    intro l hl
    exact hall l (List.mem_permutations'.mpr hl)

/-- The mapping `{"bird":1,"dog":3,"cat":3}` is reported as `["cat","dog"]` with count 3. -/
theorem C7_witness :
    (WF [(str "bird", 1), (str "dog", 3), (str "cat", 3)] ∧
      (∃ t, (t, (3 : Int)) ∈ [(str "bird", (1 : Int)), (str "dog", 3), (str "cat", 3)]) ∧
      (∀ p ∈ [(str "bird", (1 : Int)), (str "dog", 3), (str "cat", 3)], p.2 ≤ 3) ∧
      (1 : Int) < 3) ∧
    ∃ toks : List Str,
      file_report [(str "bird", 1), (str "dog", 3), (str "cat", 3)]
        = FileReport.mostFrequent 3 toks ∧
      (∀ t, t ∈ toks ↔ lookup [(str "bird", 1), (str "dog", 3), (str "cat", 3)] t = some 3) ∧
      toks.Nodup ∧ toks.Pairwise (fun a b => List.Lex (fun x y : Nat => x < y) a b) :=
  ⟨⟨by decide, ⟨str "dog", by decide⟩, by decide, by decide⟩,
    (C7_most_frequent_report [(str "bird", 1), (str "dog", 3), (str "cat", 3)] 3
      (by decide) ⟨str "dog", by decide⟩ (by decide) (by decide)).1⟩

/-- C8: the header line is never counted: two readable files whose lines after the first
are the same give the same mapping; the mapping of a file is the row loop over what follows
the first line, whatever that line holds; a header with an alphabetic field at index 12
gives nothing, although the same line as a data row would be counted. -/
theorem C8_header_never_counted (c1 c2 : Str)
    (h : (fileLines c1).tail = (fileLines c2).tail) :
    count_words_in_file (some c1) = count_words_in_file (some c2) ∧
    (∀ h1 h2 rest : Str, newline ∉ h1 → newline ∉ h2 →
      count_words_in_file (some (h1 ++ newline :: rest))
        = count_words_in_file (some (h2 ++ newline :: rest))) ∧
    (∀ hd rest : Str, newline ∉ hd →
      count_words_in_file (some (hd ++ newline :: rest))
        = (fileLines rest).foldl process_row []) ∧
    (count_words_in_file (some (str "a,b,c,d,e,f,g,h,i,j,k,l,word,n\n")) = [] ∧
      process_row [] (str "a,b,c,d,e,f,g,h,i,j,k,l,word,n") = [(str "word", 1)]) := by
  have key : ∀ hd rest : Str, newline ∉ hd →
      count_words_in_file (some (hd ++ newline :: rest))
        = (fileLines rest).foldl process_row [] := by
    intro hd rest hh
    rw [count_words_in_file_eq, fileLines_append rest hh]
    rfl
  refine ⟨?_, ?_, key, by decide, by decide⟩
  · rw [count_words_in_file_eq, count_words_in_file_eq, h]
  · intro h1 h2 rest hh1 hh2
    rw [key h1 rest hh1, key h2 rest hh2]

/-- Two files with different headers and the same data row give the same mapping. -/
theorem C8_witness :
    ((fileLines (str "a,b,c,d,e,f,g,h,i,j,k,l,word,n\n0,1,2,3,4,5,6,7,8,9,10,11,Tea\n")).tail
        = (fileLines (str "id\n0,1,2,3,4,5,6,7,8,9,10,11,Tea\n")).tail ∧
      count_words_in_file (some (str "a,b,c,d,e,f,g,h,i,j,k,l,word,n\n0,1,2,3,4,5,6,7,8,9,10,11,Tea\n"))
        = count_words_in_file (some (str "id\n0,1,2,3,4,5,6,7,8,9,10,11,Tea\n"))) ∧
    ((newline ∉ str "x,y" ∧ newline ∉ str "id") ∧
      count_words_in_file (some (str "x,y" ++ newline :: str "0,1,2,3,4,5,6,7,8,9,10,11,Tea"))
        = count_words_in_file (some (str "id" ++ newline :: str "0,1,2,3,4,5,6,7,8,9,10,11,Tea"))) :=
  ⟨⟨by decide,
    (C8_header_never_counted (str "a,b,c,d,e,f,g,h,i,j,k,l,word,n\n0,1,2,3,4,5,6,7,8,9,10,11,Tea\n")
      (str "id\n0,1,2,3,4,5,6,7,8,9,10,11,Tea\n") (by decide)).1⟩,
   ⟨by decide,
    (C8_header_never_counted (str "a\n") (str "b\n") (by decide)).2.1 (str "x,y") (str "id")
      (str "0,1,2,3,4,5,6,7,8,9,10,11,Tea") (by decide) (by decide)⟩⟩

/-- C9, as stated, fails: for the file that holds only the header `id,name`, the mapping
is empty and the block that prints the per-file report is skipped, so no
"No duplicate words" line is printed. -/
theorem C9_counterexample :
    ¬ (count_words_in_file (some (str "id,name\n")) = [] ∧
        file_report (count_words_in_file (some (str "id,name\n"))) = FileReport.noDuplicates) := by
  decide

/-- C9, amended: for every readable file that consists of a header line only,
`count_words_in_file` returns the empty mapping, and for it the per-file reporting step of
`main` prints neither the "No duplicate words" report nor a most-frequent report. -/
theorem C9_header_only (content : Str) (h : (fileLines content).length = 1) :
    count_words_in_file (some content) = [] ∧
    file_report (count_words_in_file (some content)) = FileReport.nothing ∧
    file_report (count_words_in_file (some content)) ≠ FileReport.noDuplicates := by
  have hempty : count_words_in_file (some content) = [] := by
    rw [count_words_in_file_eq]
    cases hl : fileLines content with
    | nil => rfl
    | cons x xs =>
      rw [hl] at h
      simp only [List.length_cons, Nat.add_eq_right, List.length_eq_zero] at h
      rw [h]
      rfl
  rw [hempty]
  exact ⟨rfl, by decide, by decide⟩

/-- The file that holds only the header `id,name` gives the empty mapping and no report. -/
theorem C9_witness :
    (fileLines (str "id,name\n")).length = 1 ∧
    count_words_in_file (some (str "id,name\n")) = [] ∧
    file_report (count_words_in_file (some (str "id,name\n"))) = FileReport.nothing ∧
    file_report (count_words_in_file (some (str "id,name\n"))) ≠ FileReport.noDuplicates :=
  ⟨by decide, C9_header_only (str "id,name\n") (by decide)⟩

/-- C10: for a global mapping with `n` distinct tokens (its `n` entries have distinct
keys), the top-10 report lists exactly `min 10 n` entries, so never more than `n`; each
listed entry is an entry of the global mapping, shown with its global count, and no token
is listed twice. -/
theorem C10_top10_entries (global_freq : Freq) (hwf : WF global_freq) :
    (top10 global_freq).length = min 10 global_freq.length ∧
    (top10 global_freq).length ≤ global_freq.length ∧
    (∀ p ∈ top10 global_freq, p ∈ global_freq ∧ lookup global_freq p.1 = some p.2) ∧
    ((top10 global_freq).map Prod.fst).Nodup := by
  have hperm : (sorted_entries global_freq).Perm global_freq := perm_sort_by _ _
  have hlen : (top10 global_freq).length = min 10 global_freq.length := by
    unfold top10
    rw [List.length_take, hperm.length_eq]
  refine ⟨hlen, by omega, ?_, ?_⟩
  · intro p hp
    have hp2 : p ∈ global_freq := hperm.subset (List.mem_of_mem_take hp)
    exact ⟨hp2, lookup_of_mem hwf hp2⟩
  · have hs : ((top10 global_freq).map Prod.fst).Sublist ((sorted_entries global_freq).map Prod.fst) :=
      List.Sublist.map _ (List.take_sublist _ _)
    exact List.Nodup.sublist hs (((hperm.map Prod.fst).nodup_iff).mpr hwf)

/-- A global mapping with three tokens has a top-10 report of three entries. -/
theorem C10_witness :
    WF [(str "tea", 2), (str "milk", 5), (str "rice", 1)] ∧
    (top10 [(str "tea", 2), (str "milk", 5), (str "rice", 1)]).length
      = min 10 [(str "tea", (2 : Int)), (str "milk", 5), (str "rice", 1)].length :=
  ⟨by decide,
    (C10_top10_entries [(str "tea", 2), (str "milk", 5), (str "rice", 1)] (by decide)).1⟩

/-! ## Facts about tokens and positive counts -/

theorem tolower_of_isalpha {c : Nat} (h : isalpha c = true) :
    97 ≤ tolower c ∧ tolower c ≤ 122 := by
  unfold isalpha at h
  unfold tolower
  simp only [Bool.or_eq_true, Bool.and_eq_true, decide_eq_true_eq] at h
  split <;> omega

theorem isalpha_of_lower {c : Nat} (h : 97 ≤ c ∧ c ≤ 122) : isalpha c = true := by
  unfold isalpha
  simp only [Bool.or_eq_true, Bool.and_eq_true, decide_eq_true_eq]
  omega

theorem tolower_of_lower {c : Nat} (h : 97 ≤ c ∧ c ≤ 122) : tolower c = c := by
  unfold tolower
  rw [if_neg (by omega)]

theorem clean_word_lower (w : Str) : ∀ c ∈ clean_word w, 97 ≤ c ∧ c ≤ 122 := by
  intro c hc
  rw [clean_word_eq] at hc
  unfold keepAlphaLower at hc
  obtain ⟨d, hd, rfl⟩ := List.mem_map.mp hc
  exact tolower_of_isalpha (List.mem_filter.mp hd).2

theorem keepAlphaLower_of_lower (s : Str) (h : ∀ c ∈ s, 97 ≤ c ∧ c ≤ 122) :
    keepAlphaLower s = s := by
  induction s with
  | nil => rfl
  | cons x xs ih =>
    have hx := h x (by simp)
    have hxs := ih (fun c hc => h c (List.mem_cons_of_mem _ hc))
    unfold keepAlphaLower at hxs ⊢
    rw [List.filter_cons_of_pos (isalpha_of_lower hx), List.map_cons, tolower_of_lower hx, hxs]

theorem isToken_of_rowYields {t line : Str} (h : rowYields t line = true) : isToken t := by
  unfold rowYields at h
  simp only [decide_eq_true_eq] at h
  obtain ⟨_, h2, h3⟩ := h
  refine ⟨h3, ?_⟩
  rw [← h2]
  exact clean_word_lower _

theorem keys_count_words_in_file (file : Option Str) :
    ∀ t ∈ (count_words_in_file file).map Prod.fst, isToken t := by
  intro t ht
  cases file with
  | none => simp [count_words_in_file] at ht
  | some content =>
    rw [count_words_in_file_eq, mem_keys_rows] at ht
    rcases ht with ht | ht
    · simp at ht
    · obtain ⟨line, _, hline⟩ := List.countP_pos_iff.mp ht
      exact isToken_of_rowYields hline

theorem mem_keys_foldl_merge (locals : List Freq) (t : Str) : ∀ g : Freq,
    t ∈ (locals.foldl merge_maps g).map Prod.fst ↔
      t ∈ g.map Prod.fst ∨ ∃ loc ∈ locals, t ∈ loc.map Prod.fst := by
  induction locals with
  | nil => intro g; simp
  | cons a rest ih =>
    intro g
    rw [List.foldl_cons, ih, mem_keys_merge_maps]
    simp only [List.mem_cons, exists_eq_or_imp]
    tauto

theorem process_entry_pseudo {st : RunState} {ent : DirEntry} (h : is_pseudo ent.name = true) :
    process_entry st ent = st := by
  simp [process_entry, h]

theorem process_entry_global (st : RunState) (ent : DirEntry) (h : is_pseudo ent.name = false) :
    (process_entry st ent).global_freq
      = merge_maps st.global_freq (count_words_in_file ent.content) := by
  simp [process_entry, h]

theorem foldl_process_entry_processed (entries : List DirEntry) : ∀ st : RunState,
    entries.foldl process_entry st = (processed_entries entries).foldl process_entry st := by
  induction entries with
  | nil => intro st; rfl
  | cons e rest ih =>
    intro st
    unfold processed_entries at ih ⊢
    by_cases he : is_pseudo e.name = true
    · rw [List.foldl_cons, process_entry_pseudo he, ih]
      simp [List.filter_cons, he]
    · simp only [Bool.not_eq_true] at he
      rw [List.filter_cons_of_pos (by simp [he]), List.foldl_cons, List.foldl_cons, ih]

theorem foldl_process_entry_global (entries : List DirEntry) : ∀ st : RunState,
    (entries.foldl process_entry st).global_freq
      = ((processed_entries entries).map (fun ent => count_words_in_file ent.content)).foldl
          merge_maps st.global_freq := by
  induction entries with
  | nil => intro st; rfl
  | cons e rest ih =>
    intro st
    unfold processed_entries at ih ⊢
    rw [List.foldl_cons, ih]
    by_cases he : is_pseudo e.name = true
    · rw [process_entry_pseudo he]
      simp [List.filter_cons, he]
    · simp only [Bool.not_eq_true] at he
      rw [List.filter_cons_of_pos (by simp [he]), List.map_cons, List.foldl_cons,
        process_entry_global st e he]

/-- The global mapping after the directory loop is the merge of the mappings of the
processed entries, in enumeration order, into the empty mapping. -/
theorem run_loop_global (entries : List DirEntry) :
    (run_loop entries).global_freq
      = merge_all ((processed_entries entries).map (fun ent => count_words_in_file ent.content)) := by
  unfold run_loop merge_all
  rw [foldl_process_entry_global]
  rfl

theorem process_entry_slowest (st : RunState) (ent : DirEntry) (h : is_pseudo ent.name = false) :
    ((process_entry st ent).slowest_time, (process_entry st ent).slowest_file)
      = track_slowest (st.slowest_time, st.slowest_file) ent.elapsed ent.name := by
  simp [process_entry, h]

/-- The invariant of the slowest-file tracking over entries that are all processed: either
no entry was slower than the initial `slowest_time` and nothing changed, or the variables
hold the first entry of maximal elapsed time. -/
theorem slowest_loop (entries : List DirEntry)
    (hproc : ∀ x ∈ entries, is_pseudo x.name = false) : ∀ st : RunState,
    ((∀ x ∈ entries, x.elapsed ≤ st.slowest_time) ∧
      (entries.foldl process_entry st).slowest_time = st.slowest_time ∧
      (entries.foldl process_entry st).slowest_file = st.slowest_file) ∨
    (∃ (before : List DirEntry) (ent : DirEntry) (later : List DirEntry),
      entries = before ++ ent :: later ∧ st.slowest_time < ent.elapsed ∧
      (∀ x ∈ before, x.elapsed < ent.elapsed) ∧ (∀ x ∈ later, x.elapsed ≤ ent.elapsed) ∧
      (entries.foldl process_entry st).slowest_file = ent.name ∧
      (entries.foldl process_entry st).slowest_time = ent.elapsed) := by
  induction entries with
  | nil => intro st; left; simp
  | cons e rest ih =>
    intro st
    have he : is_pseudo e.name = false := hproc e (by simp)
    have hrest : ∀ x ∈ rest, is_pseudo x.name = false :=
      fun x hx => hproc x (List.mem_cons_of_mem _ hx)
    have hstep := process_entry_slowest st e he
    simp only [track_slowest, Prod.mk.injEq] at hstep
    rw [List.foldl_cons]
    by_cases hgt : e.elapsed > st.slowest_time
    · rw [if_pos hgt] at hstep
      simp only [Prod.mk.injEq] at hstep
      obtain ⟨ht, hf⟩ := hstep
      right
      rcases ih hrest (process_entry st e) with ⟨hall, h1, h2⟩ | ⟨b, ent, l, hsplit, hlt, hb, hl, h1, h2⟩
      · refine ⟨[], e, rest, rfl, hgt, by simp, ?_, ?_, ?_⟩
        · intro x hx
          rw [← ht]; exact hall x hx
        · rw [h2, hf]
        · rw [h1, ht]
      · refine ⟨e :: b, ent, l, by rw [hsplit]; rfl, ?_, ?_, hl, h1, h2⟩
        · rw [ht] at hlt
          exact lt_trans hgt hlt
        · intro x hx
          rcases List.mem_cons.mp hx with rfl | hx
          · rw [ht] at hlt; exact hlt
          · exact hb x hx
    · rw [if_neg hgt] at hstep
      simp only [Prod.mk.injEq] at hstep
      obtain ⟨ht, hf⟩ := hstep
      have hle : e.elapsed ≤ st.slowest_time := not_lt.mp hgt
      rcases ih hrest (process_entry st e) with ⟨hall, h1, h2⟩ | ⟨b, ent, l, hsplit, hlt, hb, hl, h1, h2⟩
      · left
        refine ⟨?_, by rw [h1, ht], by rw [h2, hf]⟩
        intro x hx
        rcases List.mem_cons.mp hx with rfl | hx
        · exact hle
        · rw [← ht]; exact hall x hx
      · right
        rw [ht] at hlt
        refine ⟨e :: b, ent, l, by rw [hsplit]; rfl, hlt, ?_, hl, h1, h2⟩
        intro x hx
        rcases List.mem_cons.mp hx with rfl | hx
        · exact lt_of_le_of_lt hle hlt
        · exact hb x hx

theorem processed_entries_not_pseudo (entries : List DirEntry) :
    ∀ x ∈ processed_entries entries, is_pseudo x.name = false := by
  intro x hx
  unfold processed_entries at hx
  simpa using (List.mem_filter.mp hx).2

/-! ## Facts about the global mapping and the order of the files -/

theorem lookup_eq_count (m : Freq) (t : Str) :
    lookup m t = if t ∈ m.map Prod.fst then some (count m t) else none := by
  by_cases h : t ∈ m.map Prod.fst
  · rw [if_pos h]
    cases hl : lookup m t with
    | none => exact absurd h (lookup_eq_none.mp hl)
    | some v => simp [count, hl]
  · rw [if_neg h]
    exact lookup_eq_none.mpr h

theorem lookup_merge_all_perm (l1 l2 : List Freq) (hwf : ∀ loc ∈ l1, WF loc)
    (h : l1.Perm l2) (t : Str) : lookup (merge_all l1) t = lookup (merge_all l2) t := by
  have hwf2 : ∀ loc ∈ l2, WF loc := fun loc hloc => hwf loc (h.mem_iff.mpr hloc)
  have hk : t ∈ (merge_all l1).map Prod.fst ↔ t ∈ (merge_all l2).map Prod.fst := by
    unfold merge_all
    rw [mem_keys_foldl_merge, mem_keys_foldl_merge]
    constructor
    · rintro (h0 | ⟨loc, hloc, ht⟩)
      · exact Or.inl h0
      · exact Or.inr ⟨loc, h.mem_iff.mp hloc, ht⟩
    · rintro (h0 | ⟨loc, hloc, ht⟩)
      · exact Or.inl h0
      · exact Or.inr ⟨loc, h.mem_iff.mpr hloc, ht⟩
  have hc : count (merge_all l1) t = count (merge_all l2) t := by
    unfold merge_all
    rw [count_foldl_merge l1 hwf t [], count_foldl_merge l2 hwf2 t []]
    rw [(h.map (fun loc => count loc t)).sum_eq]
  rw [lookup_eq_count, lookup_eq_count, hc]
  by_cases h1 : t ∈ (merge_all l1).map Prod.fst
  · rw [if_pos h1, if_pos (hk.mp h1)]
  · rw [if_neg h1, if_neg (fun h2 => h1 (hk.mpr h2))]

theorem WF_merge_all (locals : List Freq) : WF (merge_all locals) :=
  WF_foldl_merge locals [] WF_nil

theorem perm_merge_all (l1 l2 : List Freq) (hwf : ∀ loc ∈ l1, WF loc) (h : l1.Perm l2) :
    (merge_all l1).Perm (merge_all l2) :=
  perm_of_lookup_eq (WF_merge_all l1) (WF_merge_all l2) (lookup_merge_all_perm l1 l2 hwf h)

theorem perm_processed_entries {e1 e2 : List DirEntry} (h : e1.Perm e2) :
    (processed_entries e1).Perm (processed_entries e2) :=
  h.filter _

/-! ## Facts about the top-10 report and the no-duplicates report -/

theorem sorted_entries_pairwise (g : Freq) :
    (sorted_entries g).Pairwise (fun a b => b.2 ≤ a.2) := by
  have h := pairwise_sort_by (fun a b : Str × Int => decide (a.2 > b.2))
    (by intro a b hab; simp only [gt_iff_lt, decide_eq_true_eq, decide_eq_false_iff_not] at hab ⊢; omega)
    (by intro a b c hab hbc; simp only [gt_iff_lt, decide_eq_true_eq] at hab hbc ⊢; omega) g
  refine List.Pairwise.imp ?_ h
  intro a b hba
  simp only [gt_iff_lt, decide_eq_false_iff_not, not_lt] at hba
  exact hba

theorem max_freq_of_le_one (loc : Freq) : max_freq_of loc ≤ 1 ↔ ∀ p ∈ loc, p.2 ≤ 1 := by
  obtain ⟨h1, h2, h3⟩ := max_loop_ge loc 0
  unfold max_freq_of
  constructor
  · intro h p hp
    exact le_trans (h2 p hp) h
  · intro h
    rcases h3 with h3 | ⟨p, hp, h3⟩
    · rw [h3]; omega
    · rw [← h3]; exact h p hp

theorem file_report_noDuplicates (loc : Freq) (hne : loc ≠ []) :
    file_report loc = FileReport.noDuplicates ↔ ∀ p ∈ loc, p.2 ≤ 1 := by
  have hemp : loc.isEmpty = false := by
    cases loc with
    | nil => exact absurd rfl hne
    | cons p rest => rfl
  rw [← max_freq_of_le_one]
  by_cases h : max_freq_of loc ≤ 1
  · simp [file_report, hemp, h]
  · simp [file_report, hemp, h]

/-! ## The claims on the reports, the invariants and the run -/

/-- C11: the entries of the top-10 report are in non-increasing order of count, and every
token of the global mapping that is not listed has a count that is at most the count of
every listed token. -/
theorem C11_top10_order (global_freq : Freq) :
    (top10 global_freq).Pairwise (fun a b => b.2 ≤ a.2) ∧
    (∀ p ∈ global_freq, p.1 ∉ (top10 global_freq).map Prod.fst →
      ∀ q ∈ top10 global_freq, p.2 ≤ q.2) := by
  have hs := sorted_entries_pairwise global_freq
  have hperm : (sorted_entries global_freq).Perm global_freq := perm_sort_by _ _
  constructor
  · exact List.Pairwise.sublist (List.take_sublist _ _) hs
  · intro p hp hnot q hq
    have hp2 : p ∈ sorted_entries global_freq := hperm.mem_iff.mpr hp
    rw [← List.take_append_drop 10 (sorted_entries global_freq)] at hp2 hs
    rcases List.mem_append.mp hp2 with h1 | h1
    · exact absurd (List.mem_map.mpr ⟨p, h1, rfl⟩) hnot
    · exact (List.pairwise_append.mp hs).2.2 q hq p h1

/-- With eleven tokens of counts 11, 10, .. , 1 the token of count 1 is not listed, and its
count is at most the count of the listed `"c"`. -/
theorem C11_witness :
    ((str "k", (1 : Int)) ∈
        [(str "k", (1 : Int)), (str "a", 11), (str "b", 10), (str "c", 9), (str "d", 8),
          (str "e", 7), (str "f", 6), (str "g", 5), (str "h", 4), (str "i", 3), (str "j", 2)] ∧
      str "k" ∉ (top10 [(str "k", (1 : Int)), (str "a", 11), (str "b", 10), (str "c", 9),
          (str "d", 8), (str "e", 7), (str "f", 6), (str "g", 5), (str "h", 4), (str "i", 3),
          (str "j", 2)]).map Prod.fst ∧
      (str "c", (9 : Int)) ∈ top10 [(str "k", (1 : Int)), (str "a", 11), (str "b", 10),
          (str "c", 9), (str "d", 8), (str "e", 7), (str "f", 6), (str "g", 5), (str "h", 4),
          (str "i", 3), (str "j", 2)]) ∧
    (1 : Int) ≤ 9 :=
  ⟨⟨by decide, by decide, by decide⟩,
    (C11_top10_order [(str "k", (1 : Int)), (str "a", 11), (str "b", 10), (str "c", 9),
      (str "d", 8), (str "e", 7), (str "f", 6), (str "g", 5), (str "h", 4), (str "i", 3),
      (str "j", 2)]).2 (str "k", 1) (by decide) (by decide) (str "c", 9) (by decide)⟩

/-- C12 fails on the code: for the directory that holds one file with the data rows of
tokens `b` and `a`, both tokens have the global count 1 and the top-10 report lists `b`
before `a`; the comparator of main.cpp 179 looks at the counts only. -/
theorem C12_ties_not_alphabetical :
    (main (some [DirEntry.mk (str "f.csv")
        (some (str "h\n0,1,2,3,4,5,6,7,8,9,10,11,b\n0,1,2,3,4,5,6,7,8,9,10,11,a\n")) 1])).2
      = [Output.fileReport (str "f.csv") FileReport.noDuplicates,
         Output.fileTime (str "f.csv") 1,
         Output.processed 1 2,
         Output.topTen [(str "b", 1), (str "a", 1)],
         Output.summary 1 2 (str "f.csv") 1] ∧
    ¬ TiesAlphabetical (top10 (run_loop [DirEntry.mk (str "f.csv")
        (some (str "h\n0,1,2,3,4,5,6,7,8,9,10,11,b\n0,1,2,3,4,5,6,7,8,9,10,11,a\n")) 1]).global_freq) ∧
    top10 [(str "b", 1), (str "a", 1)] = [(str "b", 1), (str "a", 1)] ∧
    top10 [(str "a", 1), (str "b", 1)] = [(str "a", 1), (str "b", 1)] := by
  refine ⟨by decide, ?_, by decide, by decide⟩
  have hg : top10 (run_loop [DirEntry.mk (str "f.csv")
      (some (str "h\n0,1,2,3,4,5,6,7,8,9,10,11,b\n0,1,2,3,4,5,6,7,8,9,10,11,a\n")) 1]).global_freq
      = [(str "b", 1), (str "a", 1)] := by decide
  rw [hg]
  unfold TiesAlphabetical
  intro h
  have h2 := (List.pairwise_cons.mp h).1 (str "a", 1) (by simp) rfl
  exact absurd h2 (by decide)

/-- C14: every key of a mapping returned by `count_words_in_file`, hence every key of the
global mapping, is a Token, a non-empty string of lowercase alphabetic characters; the
empty result of `clean_word` is never a key. -/
theorem C14_keys_are_tokens :
    (∀ (file : Option Str) (t : Str),
      t ∈ (count_words_in_file file).map Prod.fst → isToken t) ∧
    (∀ file : Option Str, [] ∉ (count_words_in_file file).map Prod.fst) ∧
    (∀ (files : List (Option Str)) (t : Str),
      t ∈ (merge_all (files.map count_words_in_file)).map Prod.fst → isToken t) ∧
    (∀ (entries : List DirEntry) (t : Str),
      t ∈ (run_loop entries).global_freq.map Prod.fst → isToken t) := by
  have hall : ∀ (locals : List Freq), (∀ loc ∈ locals, ∀ t ∈ loc.map Prod.fst, isToken t) →
      ∀ t, t ∈ (merge_all locals).map Prod.fst → isToken t := by
    intro locals hl t ht
    unfold merge_all at ht
    rw [mem_keys_foldl_merge] at ht
    rcases ht with ht | ⟨loc, hloc, ht⟩
    · simp at ht
    · exact hl loc hloc t ht
  refine ⟨keys_count_words_in_file, ?_, ?_, ?_⟩
  · intro file hmem
    exact (keys_count_words_in_file file [] hmem).1 rfl
  · intro files
    apply hall
    intro loc hloc
    obtain ⟨file, _, rfl⟩ := List.mem_map.mp hloc
    exact keys_count_words_in_file file
  · intro entries
    rw [run_loop_global]
    apply hall
    intro loc hloc
    obtain ⟨ent, _, rfl⟩ := List.mem_map.mp hloc
    exact keys_count_words_in_file ent.content

/-- The field `Tea-2` of the only data row is counted under the key `tea`, a Token. -/
theorem C14_witness :
    str "tea" ∈ (count_words_in_file
        (some (str "h\n0,1,2,3,4,5,6,7,8,9,10,11,Tea-2\n"))).map Prod.fst ∧
    isToken (str "tea") :=
  ⟨by decide,
    C14_keys_are_tokens.1 (some (str "h\n0,1,2,3,4,5,6,7,8,9,10,11,Tea-2\n")) (str "tea")
      (by decide)⟩

/-- C15: for a non-empty per-file mapping whose counts are all at most 1, the report of
`main` is "No duplicate words" and no most-frequent token list is reported; for a
non-empty mapping this report is produced only in that case; a single token that occurs
once gives it. -/
theorem C15_no_duplicates (loc : Freq) (hne : loc ≠ []) :
    ((∀ p ∈ loc, p.2 ≤ 1) →
      file_report loc = FileReport.noDuplicates ∧
      ∀ (m : Int) (toks : List Str), file_report loc ≠ FileReport.mostFrequent m toks) ∧
    (file_report loc = FileReport.noDuplicates → ∀ p ∈ loc, p.2 ≤ 1) ∧
    file_report [(str "x", 1)] = FileReport.noDuplicates := by
  refine ⟨?_, (file_report_noDuplicates loc hne).mp, by decide⟩
  intro h
  have hr := (file_report_noDuplicates loc hne).mpr h
  refine ⟨hr, ?_⟩
  intro m toks hm
  rw [hr] at hm
  exact FileReport.noConfusion hm

/-- The mapping `{"tea":1,"milk":1}` is reported as "No duplicate words". -/
theorem C15_witness :
    ([(str "tea", (1 : Int)), (str "milk", 1)] ≠ [] ∧
      ∀ p ∈ [(str "tea", (1 : Int)), (str "milk", 1)], p.2 ≤ 1) ∧
    file_report [(str "tea", 1), (str "milk", 1)] = FileReport.noDuplicates ∧
    ∀ (m : Int) (toks : List Str),
      file_report [(str "tea", 1), (str "milk", 1)] ≠ FileReport.mostFrequent m toks :=
  ⟨⟨by decide, by decide⟩,
    (C15_no_duplicates [(str "tea", 1), (str "milk", 1)] (by decide)).1 (by decide)⟩

/-- C16: when the directory cannot be opened, `main` returns 1 and writes only the
directory error, so no top-10 report and no summary; when it can be opened, `main` returns
0 whatever the entries hold and whether or not their files can be opened, and the top-10
report is written. -/
theorem C16_exit_status :
    main none = (1, [Output.dirError]) ∧
    (∀ entries : List DirEntry, (main (some entries)).1 = 0) ∧
    (∀ entries : List DirEntry,
      Output.topTen (top10 (run_loop entries).global_freq) ∈ (main (some entries)).2) := by
  refine ⟨rfl, fun entries => rfl, ?_⟩
  intro entries
  simp [main]

/-- C17: for a path that cannot be opened `count_words_in_file` returns the empty mapping;
merging it leaves the global mapping unchanged; the entry is counted, the entries after it
are processed as usual, the final global mapping is the one of the run without that entry,
and the exit status is 0. -/
theorem C17_unreadable_file (before later : List DirEntry) (ent : DirEntry)
    (hc : ent.content = none) :
    count_words_in_file ent.content = [] ∧
    (∀ g : Freq, merge_maps g (count_words_in_file ent.content) = g) ∧
    (∀ st : RunState, (process_entry st ent).global_freq = st.global_freq) ∧
    run_loop (before ++ ent :: later)
      = later.foldl process_entry (process_entry (run_loop before) ent) ∧
    (run_loop (before ++ ent :: later)).global_freq = (run_loop (before ++ later)).global_freq ∧
    (main (some (before ++ ent :: later))).1 = 0 := by
  have h1 : count_words_in_file ent.content = [] := by rw [hc]; rfl
  have h3 : ∀ st : RunState, (process_entry st ent).global_freq = st.global_freq := by
    intro st
    by_cases hp : is_pseudo ent.name = true
    · rw [process_entry_pseudo hp]
    · simp only [Bool.not_eq_true] at hp
      rw [process_entry_global st ent hp, h1]
      rfl
  refine ⟨h1, ?_, h3, ?_, ?_, rfl⟩
  · intro g
    rw [h1]
    rfl
  · simp [run_loop, List.foldl_append]
  · unfold run_loop
    rw [List.foldl_append, List.foldl_append, List.foldl_cons,
      foldl_process_entry_global later, foldl_process_entry_global later, h3]

/-- A directory whose second entry cannot be opened: the third entry is still counted, and
the global mapping is the one without the second entry. -/
theorem C17_witness :
    (DirEntry.mk (str "gone.csv") none 2).content = none ∧
    (run_loop ([DirEntry.mk (str "a.csv")
          (some (str "h\n0,1,2,3,4,5,6,7,8,9,10,11,tea\n")) 1] ++
        DirEntry.mk (str "gone.csv") none 2 ::
        [DirEntry.mk (str "b.csv") (some (str "h\n0,1,2,3,4,5,6,7,8,9,10,11,Tea\n")) 1])).global_freq
      = (run_loop ([DirEntry.mk (str "a.csv")
          (some (str "h\n0,1,2,3,4,5,6,7,8,9,10,11,tea\n")) 1] ++
        [DirEntry.mk (str "b.csv")
          (some (str "h\n0,1,2,3,4,5,6,7,8,9,10,11,Tea\n")) 1])).global_freq :=
  ⟨rfl,
    (C17_unreadable_file
      [DirEntry.mk (str "a.csv") (some (str "h\n0,1,2,3,4,5,6,7,8,9,10,11,tea\n")) 1]
      [DirEntry.mk (str "b.csv") (some (str "h\n0,1,2,3,4,5,6,7,8,9,10,11,Tea\n")) 1]
      (DirEntry.mk (str "gone.csv") none 2) rfl).2.2.2.2.1⟩

/-- C18, as stated, fails: for the single processed entry `a.csv` with the elapsed time 0
the test `elapsed > slowest_time` never holds, so `slowest_file` stays empty and is not
the name of that entry. -/
theorem C18_counterexample :
    (processed_entries [DirEntry.mk (str "a.csv") (some (str "h\n")) 0] ≠ [] ∧
      ∀ x ∈ processed_entries [DirEntry.mk (str "a.csv") (some (str "h\n")) 0], 0 ≤ x.elapsed) ∧
    ¬ SlowestIsFirstMax (processed_entries [DirEntry.mk (str "a.csv") (some (str "h\n")) 0])
        (run_loop [DirEntry.mk (str "a.csv") (some (str "h\n")) 0]).slowest_time
        (run_loop [DirEntry.mk (str "a.csv") (some (str "h\n")) 0]).slowest_file := by
  have hp : processed_entries [DirEntry.mk (str "a.csv") (some (str "h\n")) 0]
      = [DirEntry.mk (str "a.csv") (some (str "h\n")) 0] := by decide
  have hf : (run_loop [DirEntry.mk (str "a.csv") (some (str "h\n")) 0]).slowest_file = [] := by
    decide
  rw [hp, hf]
  refine ⟨⟨by simp, by simp⟩, ?_⟩
  rintro ⟨b, ent, l, hsplit, _, _, hname, _⟩
  cases b with
  | nil =>
    simp only [List.nil_append, List.cons.injEq] at hsplit
    rw [← hsplit.1] at hname
    exact absurd hname (by decide)
  | cons x xs =>
    simp at hsplit

/-- C18, amended: when some processed entry has an elapsed time greater than 0, the
slowest file that `main` reports is the first processed entry, in enumeration order, whose
elapsed time is the maximum over all processed entries, and the reported time is that
maximum. -/
theorem C18_slowest_file (entries : List DirEntry)
    (hpos : ∃ x ∈ processed_entries entries, 0 < x.elapsed) :
    SlowestIsFirstMax (processed_entries entries)
      (run_loop entries).slowest_time (run_loop entries).slowest_file ∧
    Output.summary (run_loop entries).file_count (run_loop entries).global_freq.length
      (run_loop entries).slowest_file (run_loop entries).slowest_time
        ∈ (main (some entries)).2 := by
  constructor
  · have hrun : run_loop entries = (processed_entries entries).foldl process_entry init_state :=
      foldl_process_entry_processed entries init_state
    rw [hrun]
    rcases slowest_loop (processed_entries entries) (processed_entries_not_pseudo entries)
        init_state with ⟨hall, _, _⟩ | ⟨b, ent, l, hsplit, _, hb, hl, hf, ht⟩
    · obtain ⟨x, hx, hx0⟩ := hpos
      have := hall x hx
      have h0 : init_state.slowest_time = 0 := rfl
      rw [h0] at this
      exact absurd hx0 (not_lt.mpr this)
    · exact ⟨b, ent, l, hsplit, hb, hl, hf, ht⟩
  · simp [main]

/-- The entries `a.csv` (3 s), `b.csv` (5 s) and `c.csv` (5 s): the slowest file is `b.csv`,
the first one of 5 s. -/
theorem C18_witness :
    (∃ x ∈ processed_entries [DirEntry.mk (str ".") none 9,
        DirEntry.mk (str "a.csv") none 3, DirEntry.mk (str "b.csv") none 5,
        DirEntry.mk (str "c.csv") none 5], 0 < x.elapsed) ∧
    SlowestIsFirstMax (processed_entries [DirEntry.mk (str ".") none 9,
        DirEntry.mk (str "a.csv") none 3, DirEntry.mk (str "b.csv") none 5,
        DirEntry.mk (str "c.csv") none 5])
      (run_loop [DirEntry.mk (str ".") none 9,
        DirEntry.mk (str "a.csv") none 3, DirEntry.mk (str "b.csv") none 5,
        DirEntry.mk (str "c.csv") none 5]).slowest_time
      (run_loop [DirEntry.mk (str ".") none 9,
        DirEntry.mk (str "a.csv") none 3, DirEntry.mk (str "b.csv") none 5,
        DirEntry.mk (str "c.csv") none 5]).slowest_file :=
  ⟨⟨DirEntry.mk (str "a.csv") none 3, by decide, by decide⟩,
    (C18_slowest_file [DirEntry.mk (str ".") none 9,
        DirEntry.mk (str "a.csv") none 3, DirEntry.mk (str "b.csv") none 5,
        DirEntry.mk (str "c.csv") none 5]
      ⟨DirEntry.mk (str "a.csv") none 3, by decide, by decide⟩).1⟩

/-- C19: the global mapping does not depend on the order of the files: for two lists of
files that are permutations of each other, counting each file and merging into the empty
mapping gives the same entry for every token, the same entries and the same number of
unique words; the same holds for the directory loop over permuted entries. -/
theorem C19_order_independent (files1 files2 : List (Option Str)) (h : files1.Perm files2) :
    (∀ t, lookup (merge_all (files1.map count_words_in_file)) t
        = lookup (merge_all (files2.map count_words_in_file)) t) ∧
    (merge_all (files1.map count_words_in_file)).Perm
      (merge_all (files2.map count_words_in_file)) ∧
    (merge_all (files1.map count_words_in_file)).length
      = (merge_all (files2.map count_words_in_file)).length ∧
    (∀ entries1 entries2 : List DirEntry, entries1.Perm entries2 →
      (run_loop entries1).global_freq.Perm (run_loop entries2).global_freq ∧
      (run_loop entries1).global_freq.length = (run_loop entries2).global_freq.length) := by
  have hwf : ∀ files : List (Option Str), ∀ loc ∈ files.map count_words_in_file, WF loc := by
    intro files loc hloc
    obtain ⟨file, _, rfl⟩ := List.mem_map.mp hloc
    exact WF_count_words_in_file file
  have hp := perm_merge_all _ _ (hwf files1) (h.map count_words_in_file)
  refine ⟨lookup_merge_all_perm _ _ (hwf files1) (h.map count_words_in_file), hp,
    hp.length_eq, ?_⟩
  intro entries1 entries2 he
  rw [run_loop_global, run_loop_global]
  have hwf1 : ∀ loc ∈ (processed_entries entries1).map
      (fun ent => count_words_in_file ent.content), WF loc := by
    intro loc hloc
    obtain ⟨ent, _, rfl⟩ := List.mem_map.mp hloc
    exact WF_count_words_in_file ent.content
  have hp2 := perm_merge_all _ _ hwf1 ((perm_processed_entries he).map _)
  exact ⟨hp2, hp2.length_eq⟩

/-- Two files processed in either order give the same entries, here `tea` twice and `milk`
once. -/
theorem C19_witness :
    [some (str "h\n0,1,2,3,4,5,6,7,8,9,10,11,milk\n0,1,2,3,4,5,6,7,8,9,10,11,tea\n"),
        some (str "h\n0,1,2,3,4,5,6,7,8,9,10,11,Tea\n")].Perm
      [some (str "h\n0,1,2,3,4,5,6,7,8,9,10,11,Tea\n"),
        some (str "h\n0,1,2,3,4,5,6,7,8,9,10,11,milk\n0,1,2,3,4,5,6,7,8,9,10,11,tea\n")] ∧
    (merge_all ([some (str "h\n0,1,2,3,4,5,6,7,8,9,10,11,milk\n0,1,2,3,4,5,6,7,8,9,10,11,tea\n"),
        some (str "h\n0,1,2,3,4,5,6,7,8,9,10,11,Tea\n")].map count_words_in_file)).Perm
      (merge_all ([some (str "h\n0,1,2,3,4,5,6,7,8,9,10,11,Tea\n"),
        some (str "h\n0,1,2,3,4,5,6,7,8,9,10,11,milk\n0,1,2,3,4,5,6,7,8,9,10,11,tea\n")].map
          count_words_in_file)) :=
  ⟨List.Perm.swap _ _ [],
    (C19_order_independent
      [some (str "h\n0,1,2,3,4,5,6,7,8,9,10,11,milk\n0,1,2,3,4,5,6,7,8,9,10,11,tea\n"),
        some (str "h\n0,1,2,3,4,5,6,7,8,9,10,11,Tea\n")]
      [some (str "h\n0,1,2,3,4,5,6,7,8,9,10,11,Tea\n"),
        some (str "h\n0,1,2,3,4,5,6,7,8,9,10,11,milk\n0,1,2,3,4,5,6,7,8,9,10,11,tea\n")]
      (List.Perm.swap _ _ [])).2.1⟩

/-- C20: `clean_word` is idempotent: every token that it produces is a fixed point. -/
theorem C20_clean_word_idempotent (w : Str) : clean_word (clean_word w) = clean_word w := by
  rw [clean_word_eq (clean_word w)]
  exact keepAlphaLower_of_lower _ (clean_word_lower w)

end WordCount
